import Mathlib

/-!
Verification of the Edge-Information-for-Branch-Prediction repository:
a shallow embedding, in Lean 4, of the static feature extractor
(`ControlFlowExtractor.cpp`), the runtime instrumenter
(`BranchHistoryInstrumenter.cpp`) and the runtime log sink
(`DynamicLog.cpp`), together with theorems settling the specification
claims about them.
-/

namespace BranchPred

/-! ## Data model: the LLVM-IR fragment the passes inspect

A `Value` is an operand of an instruction.  The extractor only ever asks
a value: which `isa` class it belongs to (`ConstantInt`, `ConstantFP`,
`Instruction` — and, among instructions, `LoadInst` / `GetElementPtrInst`
— or `Argument`), and whether its static type is a pointer.  We record
exactly that information. -/

inductive ValueSort where
  /-- the value is the result of another instruction; the two flags say
  whether that producing instruction is a `LoadInst` resp. a
  `GetElementPtrInst`. -/
  | instrResult (isLoad : Bool) (isGEP : Bool)
  /-- a routine parameter (`Argument`). -/
  | argument
  /-- a literal integer constant (`ConstantInt`) with its numeric value. -/
  | constInt (val : Nat)
  /-- a literal floating-point constant (`ConstantFP`). -/
  | constFP
  /-- anything else (basic-block references, globals, …). -/
  | other
deriving DecidableEq, Repr

structure Value where
  sort : ValueSort
  /-- result of `V->getType()->isPointerTy()`. -/
  isPointerTy : Bool
deriving DecidableEq, Repr

/-- The instruction opcode classes distinguished by the passes.  Blocks are
referred to by their index in the routine's block list, so terminator
kinds carry their successor indices. -/
inductive InstrKind where
  /-- a `BranchInst`: conditional when `cond = some c`; `succs` are the
  successor block indices in successor-list order. -/
  | brI (cond : Option Value) (succs : List Nat)
  | switchI (cond : Value) (succs : List Nat)
  | indirectbrI (succs : List Nat)
  | retI
  | callI (callee : String)
  | loadI
  | storeI
  | otherI
deriving DecidableEq, Repr

structure Instr where
  kind : InstrKind
  operands : List Value
deriving DecidableEq, Repr

/-- A basic block.  `name` models `BB.getName()`; `textId` is the textual
identifier this block prints as inside a branch instruction
(`label %<textId>`), e.g. `"30"` for an unnamed numbered block. -/
structure Block where
  name : String
  textId : String
  instrs : List Instr
deriving DecidableEq, Repr

instance : Inhabited Block := ⟨⟨"", "", []⟩⟩

/-- A routine under analysis (`Function`). -/
structure Func where
  blocks : List Block
deriving DecidableEq, Repr

/-- `BB.getTerminator()`: the block's final instruction. -/
def Block.terminator (B : Block) : Option Instr := B.instrs.getLast?

/-- Successor indices contributed by a terminator. -/
def Instr.succIdxs (I : Instr) : List Nat :=
  match I.kind with
  | .brI _ s => s
  | .switchI _ s => s
  | .indirectbrI s => s
  | _ => []

/-- Successor indices of block `j` of `F` (empty when `j` is out of range
or the block is empty). -/
def succsOf (F : Func) (j : Nat) : List Nat :=
  match (F.blocks.getD j default).terminator with
  | some T => T.succIdxs
  | none => []

/-- Predecessor indices of block `j` of `F` (`predecessors(BB)`). -/
def predsOf (F : Func) (j : Nat) : List Nat :=
  (List.range F.blocks.length).filter (fun p => j ∈ succsOf F p)

/-! ## Runtime log sink (`DynamicLog.cpp`)

The sink's interaction with the outside world is reduced to three read-only
facts per call (`LogEnv`): the value of the `PROGRAM_NAME` environment
variable, whether the create+delete probe of `branch_history_logs/.test`
succeeds, and whether opening the log file succeeds.  The mutable
process-wide state (`LogState`) mirrors the two globals `programName` and
`logFile`; the open stream is modelled by its path, an unflushed buffer and
the flushed file contents, plus the lines written to `stderr`. -/

structure LogEnv where
  programNameEnv : Option String
  dirProbeOk : Bool
  openOk : Bool
deriving DecidableEq, Repr

structure LogState where
  programName : Option String
  openFile : Option String
  fileContents : List String
  buffer : List String
  stderrMsgs : List String
deriving DecidableEq, Repr

/-- The state at process start: both globals unset, nothing written. -/
def initLogState : LogState := ⟨none, none, [], [], []⟩

/-- `setProgramName` (DynamicLog.cpp lines 12-14). -/
def setProgramName (name : String) (st : LogState) : LogState :=
  { st with programName := some name }

/-- The warning emitted when the directory probe fails (line 37). -/
def dirWarning : String := "Warning: branch_history_logs directory may not exist"

/-- The log path constructed for a resolved program identity (lines 27-29). -/
def logPathOf (pn : String) : String :=
  "branch_history_logs/" ++ pn ++ "_branch_history.log"

/-- `logFile << branchID << "," << (taken ? 1 : 0) << "\n"; logFile.flush();`
(lines 46-47): append the line to the stream buffer, then move the whole
buffer into the file. -/
def writeAndFlush (id : Nat) (taken : Bool) (st : LogState) : LogState :=
  let st1 := { st with buffer := st.buffer ++ [toString id ++ "," ++ (if taken then "1" else "0")] }
  { st1 with fileContents := st1.fileContents ++ st1.buffer, buffer := [] }

/-- `logBranchOutcome` (DynamicLog.cpp lines 16-48).  When the stream is not
open: resolve the program identity (cached global, else environment, else
`"unknown"`) and cache it; build the path; probe the directory (warning on
failure); open the file (truncating), or report the failure on `stderr` and
drop the event.  In every successful case the event line is written and
flushed. -/
def logBranchOutcome (env : LogEnv) (id : Nat) (taken : Bool) (st : LogState) : LogState :=
  match st.openFile with
  | some _ => writeAndFlush id taken st
  | none =>
    let pn :=
      match st.programName with
      | some p => p
      | none =>
        match env.programNameEnv with
        | some e => e
        | none => "unknown"
    let st1 := { st with programName := some pn }
    let logPath := logPathOf pn
    let st2 :=
      if env.dirProbeOk then st1
      else { st1 with stderrMsgs := st1.stderrMsgs ++ [dirWarning] }
    if env.openOk then
      writeAndFlush id taken
        { st2 with openFile := some logPath, fileContents := [], buffer := [] }
    else
      { st2 with stderrMsgs := st2.stderrMsgs ++ ["Failed to open " ++ logPath] }

/-! ## The static feature extractor (`ControlFlowExtractor.cpp`)

`AllFeatures` is keyed by instruction pointer in the source; here it is
keyed positionally, block index → instruction index → record.  Modelling
the `std::map` as a total function keeps the updates pointwise. -/

/-- The per-instruction feature record (`InstructionFeatures`,
lines 26-38). -/
structure InstructionFeatures where
  in_loop : Nat
  dist_to_control_flow : Nat
  num_predecessors : Nat
  num_successors : Nat
  loop_depth : Nat
  op_type_is_memory_access : Bool
  op_type_is_register_operand : Bool
  op_type_is_immediate : Bool
  num_operands : Nat
deriving DecidableEq, Repr

abbrev FeatMap := Nat → Nat → InstructionFeatures

/-- The initialization of `run` (line 53): `{0, 999, 0, 0, 0, false,
false, false, 0}` for every instruction. -/
def initFeatures : FeatMap := fun _ _ => ⟨0, 999, 0, 0, 0, false, false, false, 0⟩

/-- Update the features of every instruction of block `j` pointwise. -/
def setBlock (m : FeatMap) (j : Nat) (g : InstructionFeatures → InstructionFeatures) : FeatMap :=
  fun j' i => if j' = j then g (m j' i) else m j' i

/-- Update block `j` where the new value may depend on the instruction
index. -/
def setBlockIdx (m : FeatMap) (j : Nat)
    (g : Nat → InstructionFeatures → InstructionFeatures) : FeatMap :=
  fun j' i => if j' = j then g i (m j' i) else m j' i

/-- A node of the externally supplied loop-nest forest (`LoopInfo`): the
loop's member block indices (`L->blocks()`) and its nested sub-loops
(`L->getSubLoops()`). -/
inductive LoopT where
  | node (blks : List Nat) (subs : List LoopT)

/-- The member blocks listed directly on a loop node. -/
def ownBlks : LoopT → List Nat
  | .node blks _ => blks

mutual
/-- `markInstructionsInLoop` (lines 140-149): set `in_loop := 1` on every
instruction of every member block, then recurse into the sub-loops. -/
def markLoop : LoopT → FeatMap → FeatMap
  | .node blks subs, m =>
    markLoopList subs
      (blks.foldl (fun m2 b => setBlock m2 b (fun f => { f with in_loop := 1 })) m)
/-- The `for (Loop *SubLoop : L->getSubLoops())` recursion, and likewise
the top-level `for (Loop *L : LI)` loop of `run` (lines 58-60). -/
def markLoopList : List LoopT → FeatMap → FeatMap
  | [], m => m
  | L :: rest, m => markLoopList rest (markLoop L m)
end

mutual
/-- Whether the recursive marking of `markLoop` reaches block `bb`. -/
def containsBB : LoopT → Nat → Bool
  | .node blks subs, bb => decide (bb ∈ blks) || containsBBList subs bb
def containsBBList : List LoopT → Nat → Bool
  | [], _ => false
  | L :: rest, bb => containsBB L bb || containsBBList rest bb
end

mutual
/-- Modelled collaborator `LI.getLoopFor(&BB)` combined with
`Loop::getLoopDepth()`: the nesting depth (1 = outermost) of the innermost
loop containing block `bb`, or `none` when no loop does.  In a well-formed
forest every loop containing `bb` lists it among its own member blocks, so
the search descends only into nodes whose member list holds `bb`. -/
def depthIn : LoopT → Nat → Option Nat
  | .node blks subs, bb =>
    if bb ∈ blks then
      match depthInList subs bb with
      | some d => some (d + 1)
      | none => some 1
    else none
def depthInList : List LoopT → Nat → Option Nat
  | [], _ => none
  | L :: rest, bb =>
    match depthIn L bb with
    | some d => some d
    | none => depthInList rest bb
end

mutual
/-- The LLVM loop-nest invariant: every sub-loop's member blocks are among
its parent's member blocks. -/
def WFLoop : LoopT → Prop
  | .node blks subs => WFLoopList blks subs
def WFLoopList (blks : List Nat) : List LoopT → Prop
  | [] => True
  | L :: rest => (∀ b ∈ ownBlks L, b ∈ blks) ∧ WFLoop L ∧ WFLoopList blks rest
end

/-- A *control-point* instruction (lines 164 and 192):
`isa<BranchInst> || isa<CallInst> || isa<ReturnInst> ||
isa<IndirectBrInst> || isa<SwitchInst>`. -/
def isCtrl (I : Instr) : Bool :=
  match I.kind with
  | .brI _ _ => true
  | .callI _ => true
  | .retI => true
  | .indirectbrI _ => true
  | .switchI _ _ => true
  | _ => false

/-- The block-distance map seeded by `computeDistanceToControlFlow`
(lines 156-168): 0 for blocks whose terminator is a control point,
sentinel 999 otherwise. -/
def seedDist (F : Func) : List Nat :=
  F.blocks.map (fun B =>
    match B.terminator with
    | some T => if isCtrl T then 0 else 999
    | none => 999)

/-- The initial worklist: the seeded blocks, in block order. -/
def seedQueue (F : Func) : List Nat :=
  (List.range F.blocks.length).filter (fun j =>
    match (F.blocks.getD j default).terminator with
    | some T => isCtrl T
    | none => false)

/-- The body of one worklist iteration (lines 171-181): pop block `b`,
read its current distance once, and relax every predecessor whose current
distance is larger than that plus one, enqueueing each updated
predecessor. -/
def wlRelax (F : Func) (dist : List Nat) (b : Nat) : List Nat × List Nat :=
  let d := dist.getD b 999
  (predsOf F b).foldl
    (fun (acc : List Nat × List Nat) p =>
      if acc.1.getD p 999 > d + 1 then (acc.1.set p (d + 1), acc.2 ++ [p]) else acc)
    (dist, [])

/-- The FIFO worklist loop, fuelled.  Every enqueue after the seeds is
accompanied by a strict decrease of one entry of the distance map, each
entry bounded by 999, so at most `n + 999·n` pops can see a nonempty
queue; the fuel `1000·(n+1)` passed below therefore never runs out before
the queue empties. -/
def worklist (F : Func) : Nat → List Nat → List Nat → List Nat
  | 0, dist, _ => dist
  | _ + 1, dist, [] => dist
  | fuel + 1, dist, b :: q =>
    let r := wlRelax F dist b
    worklist F fuel r.1 (q ++ r.2)

/-- The block-level distances `BlockDistances` after backward
propagation. -/
def blockDistances (F : Func) : List Nat :=
  worklist F (1000 * (F.blocks.length + 1)) (seedDist F) (seedQueue F)

/-- The reverse in-block scan (lines 188-201), applied to the reversed
instruction list: a control-point instruction gets distance 0 and resets
the running counter to 1; any other instruction gets the current counter
value, which then increments, saturating at the sentinel 999. -/
def revScan : List Instr → Nat → List Nat
  | [], _ => []
  | I :: rest, counter =>
    if isCtrl I then 0 :: revScan rest 1
    else counter :: revScan rest (if counter < 999 then counter + 1 else counter)

/-- Per-instruction distances of block `j` in program order: the reverse
scan started at counter 0, then the fallback (lines 203-209) replacing a
still-sentinel 999 by the block-level distance. -/
def instrDists (F : Func) (j : Nat) : List Nat :=
  (revScan (F.blocks.getD j default).instrs.reverse 0).reverse.map
    (fun d => if d = 999 then (blockDistances F).getD j 999 else d)

/-- `isa<ConstantInt>(V) || isa<ConstantFP>(V)`. -/
def isConstVal (V : Value) : Bool :=
  match V.sort with
  | .constInt _ => true
  | .constFP => true
  | _ => false

/-- `isa<Instruction>(V) || isa<Argument>(V)`. -/
def isRegVal (V : Value) : Bool :=
  match V.sort with
  | .instrResult _ _ => true
  | .argument => true
  | _ => false

/-- `isa<LoadInst>(Cond) || isa<GetElementPtrInst>(Cond)`. -/
def isLoadOrGEP (V : Value) : Bool :=
  match V.sort with
  | .instrResult il ig => il || ig
  | _ => false

/-- `isa<LoadInst>(&I) || isa<StoreInst>(&I)`. -/
def isLoadStoreI (I : Instr) : Bool :=
  match I.kind with
  | .loadI => true
  | .storeI => true
  | _ => false

/-- The per-operand loop body of `computeInstructionSpecificFeatures`
(lines 270-309) on the flag accumulator `(mem, reg, imm)`: the load/store
check, the pointer-type check, the immediate/register classification
(`else if`, so a constant is never also counted as a register value), then
the conditional-branch and switch condition re-scans. -/
def scanOperand (I : Instr) (acc : Bool × Bool × Bool) (V : Value) : Bool × Bool × Bool :=
  let mem1 := acc.1 || isLoadStoreI I
  let mem2 := mem1 || V.isPointerTy
  let imm1 := acc.2.2 || isConstVal V
  let reg1 := acc.2.1 || (!isConstVal V && isRegVal V)
  let step2 : Bool × Bool × Bool :=
    match I.kind with
    | .brI (some c) _ =>
      (mem2 || isLoadOrGEP c, reg1 || (!isConstVal c && isRegVal c), imm1 || isConstVal c)
    | _ => (mem2, reg1, imm1)
  match I.kind with
  | .switchI c _ =>
    (step2.1 || isLoadOrGEP c, step2.2.1 || (!isConstVal c && isRegVal c),
      step2.2.2 || isConstVal c)
  | _ => step2

/-- The three operand flags `(mem, reg, imm)` of one instruction,
accumulated over its operand list starting from `(false, false, false)`. -/
def instrFlags (I : Instr) : Bool × Bool × Bool :=
  I.operands.foldl (scanOperand I) (false, false, false)

/-- Whether the condition re-scan of `computeInstructionSpecificFeatures`
fires for the memory flag: the instruction is a conditional branch or a
switch whose controlling condition is a load or `getelementptr` result. -/
def condLoadGEP (I : Instr) : Bool :=
  match I.kind with
  | .brI (some c) _ => isLoadOrGEP c
  | .switchI c _ => isLoadOrGEP c
  | _ => false

/-- The instruction at position `(j, i)`. -/
def instrAt (F : Func) (j i : Nat) : Instr :=
  (F.blocks.getD j default).instrs.getD i ⟨.otherI, []⟩

/-- Loop-membership marking over the forest (`run` lines 58-60). -/
def markLoopPass (forest : List LoopT) (m : FeatMap) : FeatMap :=
  markLoopList forest m

/-- Loop-depth population (`run` lines 63-69): for each block with an
enclosing loop, set `loop_depth` on all its instructions to the innermost
enclosing loop's depth. -/
def loopDepthPass (F : Func) (forest : List LoopT) (m : FeatMap) : FeatMap :=
  (List.range F.blocks.length).foldl
    (fun m2 j =>
      match depthInList forest j with
      | some d => setBlock m2 j (fun f => { f with loop_depth := d })
      | none => m2)
    m

/-- The per-instruction assignment phase of `computeDistanceToControlFlow`
(lines 184-210). -/
def distPass (F : Func) (m : FeatMap) : FeatMap :=
  (List.range F.blocks.length).foldl
    (fun m2 j => setBlockIdx m2 j (fun i f =>
      match (instrDists F j)[i]? with
      | some d => { f with dist_to_control_flow := d }
      | none => f))
    m

/-- `computeBasicBlockFeatures` (lines 239-257): broadcast the
predecessor/successor counts of each block to all its instructions. -/
def bbPass (F : Func) (m : FeatMap) : FeatMap :=
  (List.range F.blocks.length).foldl
    (fun m2 j => setBlock m2 j (fun f =>
      { f with num_predecessors := (predsOf F j).length,
               num_successors := (succsOf F j).length }))
    m

/-- `computeInstructionSpecificFeatures` (lines 259-316). -/
def instrPass (F : Func) (m : FeatMap) : FeatMap :=
  (List.range F.blocks.length).foldl
    (fun m2 j => setBlockIdx m2 j (fun i f =>
      match (F.blocks.getD j default).instrs[i]? with
      | some I =>
        { f with op_type_is_memory_access := (instrFlags I).1,
                 op_type_is_register_operand := (instrFlags I).2.1,
                 op_type_is_immediate := (instrFlags I).2.2,
                 num_operands := I.operands.length }
      | none => f))
    m

/-- `ControlFlowExtractor::run` (lines 46-81), as far as the feature map
is concerned: initialize, mark loop membership, set loop depths, compute
distances, then the structural and instruction-specific features.
(Branch-ID assignment and dependency tracking write other maps; label
inference and report emission do not write features.) -/
def runFeatures (F : Func) (forest : List LoopT) : FeatMap :=
  instrPass F (bbPass F (distPass F (loopDepthPass F forest (markLoopPass forest initFeatures))))

/-- The emitted feature record of instruction `i` of block `j`. -/
def featAt (F : Func) (forest : List LoopT) (j i : Nat) : InstructionFeatures :=
  runFeatures F forest j i

/-! ## Conditional-branch terminators, branch-ID assignment and the
runtime instrumenter -/

/-- Whether a block's terminator is a two-way conditional branch
(`dyn_cast<BranchInst>(BB.getTerminator())` + `BI->isConditional()`). -/
def isCondBrTerm (B : Block) : Bool :=
  match B.terminator with
  | some ⟨.brI (some _) _, _⟩ => true
  | _ => false

/-- Number of blocks of a routine whose terminator is a conditional
branch. -/
def condBrCount : List Block → Nat
  | [] => 0
  | B :: rest => (if isCondBrTerm B then 1 else 0) + condBrCount rest

/-- `ControlFlowExtractor::assignBranchIDs` (lines 213-221), with blocks
numbered from `j`: for every block whose terminator is a conditional
branch, record `(block index, BranchCounter++)`. -/
def assignFrom (j c : Nat) : List Block → List (Nat × Nat) × Nat
  | [] => ([], c)
  | B :: rest =>
    if isCondBrTerm B then
      let r := assignFrom (j + 1) (c + 1) rest
      ((j, c) :: r.1, r.2)
    else assignFrom (j + 1) c rest

/-- Branch-ID assignment for one routine, starting from counter `c`. -/
def assignBranchIDs (F : Func) (c : Nat) : List (Nat × Nat) × Nat :=
  assignFrom 0 c F.blocks

/-- One extractor run over several routines: the pass object's
`BranchCounter` member persists between the `run` invocations, so the
counter threads through; the result collects the assigned IDs in
block-traversal order. -/
def runIDs : List Func → Nat → List Nat × Nat
  | [], c => ([], c)
  | F :: rest, c =>
    let r := assignBranchIDs F c
    let r2 := runIDs rest r.2
    ((r.1.map Prod.snd) ++ r2.1, r2.2)

/-- Total number of conditional-branch terminators over a run. -/
def totalCondBrCount : List Func → Nat
  | [] => 0
  | F :: rest => condBrCount F.blocks + totalCondBrCount rest

/-- The call instruction the instrumenter inserts:
`logBranchOutcome(<id : i64 constant>, <condition>)`
(BranchHistoryInstrumenter.cpp lines 30-36). -/
def mkLogCall (id : Nat) (cond : Value) : Instr :=
  ⟨.callI "logBranchOutcome", [⟨.constInt id, false⟩, cond]⟩

/-- `BranchHistoryInstrumenter::run` on one block: when the terminator is a
conditional branch, insert the logging call immediately before it
(`IRBuilder<> Builder(BI)` inserts right before `BI`) and bump the
counter; otherwise leave the block alone. -/
def instrumentBlock (c : Nat) (B : Block) : Block × Nat :=
  match B.terminator with
  | some T =>
    match T.kind with
    | .brI (some cond) _ =>
      ({ B with instrs := B.instrs.dropLast ++ [mkLogCall c cond, T] }, c + 1)
    | _ => (B, c)
  | none => (B, c)

/-- `BranchHistoryInstrumenter::run` over a routine's blocks in order,
threading the instrumenter's own static counter. -/
def instrumentBlocks (c : Nat) : List Block → List Block × Nat
  | [] => ([], c)
  | B :: rest =>
    let r := instrumentBlock c B
    let r2 := instrumentBlocks r.2 rest
    (r.1 :: r2.1, r2.2)

def instrumentFunc (F : Func) (c : Nat) : Func × Nat :=
  (⟨(instrumentBlocks c F.blocks).1⟩, (instrumentBlocks c F.blocks).2)

/-! ## Block label inference (`inferBlockLabels`, ControlFlowExtractor.cpp
lines 85-138)

Strings are handled as character lists.  `getLabelFromBranch` scans the
printed form of a branch instruction for occurrences of `label %` and cuts
each following token at the first of `,`, space, newline.  The printed
form of a branch is reconstructed by `printBranch`: a conditional branch
prints as `br i1 %cond, label %T, label %F`, an unconditional one as
`br label %T`, each successor position contributing `label %<textId>` of
the successor block. -/

/-- `pat` occurs at this exact position (one probe of `find`). -/
def startsWith : List Char → List Char → Bool
  | [], _ => true
  | _ :: _, [] => false
  | p :: ps, c :: cs => p == c && startsWith ps cs

/-- The pattern `"label %"` searched by `getLabelFromBranch`. -/
def labelPat : List Char := "label %".data

/-- One of the token-ending characters of `find_first_of(", \n")`. -/
def isDelim (c : Char) : Bool := c == ',' || c == ' ' || c == '\n'

/-- `s.find(pat) != npos`: `pat` occurs somewhere in `s`. -/
def containsSub (pat : List Char) : List Char → Bool
  | [] => pat.isEmpty
  | c :: cs => startsWith pat (c :: cs) || containsSub pat cs

/-- The scanning loop of `getLabelFromBranch` (lines 123-136): find the
next `label %`, skip its 7 characters, take the token up to the first of
`, \n` (an empty token is not collected), and continue from the
delimiter. -/
def scanLabels : List Char → List String
  | [] => []
  | c :: cs =>
    if startsWith labelPat (c :: cs) then
      let after := (c :: cs).drop 7
      let tok := after.takeWhile (fun ch => !(isDelim ch))
      let rest := after.dropWhile (fun ch => !(isDelim ch))
      if tok.isEmpty then scanLabels rest else String.mk tok :: scanLabels rest
    else scanLabels cs
termination_by s => s.length
decreasing_by
  · have h1 := (List.dropWhile_sublist (l := (c :: cs).drop 7)
      (p := fun ch => !(isDelim ch))).length_le
    have h2 : ((c :: cs).drop 7).length = (c :: cs).length - 7 := List.length_drop _ _
    simp only [List.length_cons] at h1 h2 ⊢
    omega
  · have h1 := (List.dropWhile_sublist (l := (c :: cs).drop 7)
      (p := fun ch => !(isDelim ch))).length_le
    have h2 : ((c :: cs).drop 7).length = (c :: cs).length - 7 := List.length_drop _ _
    simp only [List.length_cons] at h1 h2 ⊢
    omega

/-- `getLabelFromBranch(instr, succIdx)` (lines 122-138): the `succIdx`-th
collected label, or `""` when there are fewer. -/
def getLabelFromBranch (instr : String) (succIdx : Nat) : String :=
  (scanLabels instr.data).getD succIdx ""

/-- The successor part of a printed branch: `label %T₁, label %T₂, …`. -/
def succsTxt : List String → String
  | [] => ""
  | [t] => "label %" ++ t
  | t :: rest => "label %" ++ t ++ ", " ++ succsTxt rest

/-- The printed form of a branch instruction (`raw_string_ostream << *BI`). -/
def printBranch (isCond : Bool) (targets : List String) : String :=
  (if isCond then "br i1 %cond, " else "br ") ++ succsTxt targets

/-- Phase 1 of `inferBlockLabels` (lines 88-91): synthesized placeholder
labels `<unnamed_N>` in traversal order. -/
def placeholderLabel (n : Nat) : String := "<unnamed_" ++ toString n ++ ">"

def initLabels (F : Func) : List String :=
  (List.range F.blocks.length).map placeholderLabel

/-- One step of phase 2 (lines 94-106): if block `p` ends in a branch,
print it and assign each successor the label extracted for its position,
skipping empty extractions. -/
def branchAssign (F : Func) (labels : List String) (p : Nat) : List String :=
  match (F.blocks.getD p default).terminator with
  | some T =>
    match T.kind with
    | .brI cond succs =>
      let instrStr := printBranch cond.isSome
        (succs.map (fun s => (F.blocks.getD s default).textId))
      (List.range succs.length).foldl
        (fun labs i =>
          let label := getLabelFromBranch instrStr i
          if label ≠ "" then labs.set (succs.getD i 0) label else labs)
        labels
    | _ => labels
  | none => labels

def phase2 (F : Func) (labels : List String) : List String :=
  (List.range F.blocks.length).foldl (branchAssign F) labels

/-- Phase 3 (lines 109-114): a block whose label still contains
`<unnamed` falls back to its declared name, unless that is empty or the
sentinel `"0"`. -/
def phase3 (F : Func) (labels : List String) : List String :=
  (List.range F.blocks.length).foldl
    (fun labs p =>
      let nm := (F.blocks.getD p default).name
      if nm ≠ "" ∧ nm ≠ "0" ∧ containsSub "<unnamed".data (labs.getD p "").data
      then labs.set p nm
      else labs)
    labels

def inferBlockLabels (F : Func) : List String :=
  phase3 F (phase2 F (initLabels F))

/-- The successor indices named by a block's terminator. -/
def Block.termSuccs (B : Block) : List Nat :=
  match B.terminator with
  | some T => T.succIdxs
  | none => []

/-- Whether block `p`'s terminator is a branch listing `j` among its
successors. -/
def isBranchTargetOf (F : Func) (p j : Nat) : Bool :=
  match (F.blocks.getD p default).terminator with
  | some T =>
    match T.kind with
    | .brI _ succs => decide (j ∈ succs)
    | _ => false
  | none => false

/-- Whether some branch terminator of `F` targets block `j`. -/
def isBranchTarget (F : Func) (j : Nat) : Bool :=
  (List.range F.blocks.length).any (fun p => isBranchTargetOf F p j)

/-- Well-formedness of a routine's textual identifiers and CFG, as LLVM
guarantees it: every block's printed identifier is nonempty, contains no
delimiter character (unquoted `%`-identifiers never hold `,`, space or
newline) and no `<unnamed` substring; and every successor index named by a
terminator is in range. -/
def WFBlockIds (F : Func) : Prop :=
  (∀ B ∈ F.blocks, B.textId ≠ ""
    ∧ (∀ ch ∈ B.textId.data, isDelim ch = false)
    ∧ containsSub "<unnamed".data B.textId.data = false)
  ∧ (∀ B ∈ F.blocks, ∀ s ∈ B.termSuccs, s < F.blocks.length)

theorem assignFrom_spec (Bs : List Block) (j c : Nat) :
    (assignFrom j c Bs).1.map Prod.snd = List.range' c (condBrCount Bs)
    ∧ (assignFrom j c Bs).2 = c + condBrCount Bs := by
  induction Bs generalizing j c with
  | nil => simp [assignFrom, condBrCount]
  | cons B rest ih =>
    by_cases h : isCondBrTerm B = true
    · simpa [assignFrom, condBrCount, h, List.range'_succ, Nat.add_comm 1,
        Nat.add_assoc] using ih (j + 1) (c + 1)
    · simpa [assignFrom, condBrCount, h] using ih (j + 1) c

theorem runIDs_spec (Fs : List Func) (c : Nat) :
    (runIDs Fs c).1 = List.range' c (totalCondBrCount Fs)
    ∧ (runIDs Fs c).2 = c + totalCondBrCount Fs := by
  induction Fs generalizing c with
  | nil => simp [runIDs, totalCondBrCount]
  | cons F rest ih =>
    have h1 := assignFrom_spec F.blocks 0 c
    have h2 := ih (c + condBrCount F.blocks)
    simp only [runIDs, totalCondBrCount, assignBranchIDs, h1.1, h1.2, h2.1, h2.2]
    constructor
    · have hra := List.range'_append c (condBrCount F.blocks) (totalCondBrCount rest) 1
      rw [one_mul, Nat.add_comm (totalCondBrCount rest)] at hra
      exact hra
    · omega

/-- **C4**: within one extractor run (possibly spanning several routines),
the BranchID values assigned to conditional-branch terminators are exactly
`0, 1, 2, …` in block-traversal order: unique, strictly increasing, drawn
from a single counter that starts at 0 and is not reset between routines
(the final counter equals the total number of conditional branches of the
whole run). -/
theorem c4_branch_ids_strictly_increasing (Fs : List Func) :
    (runIDs Fs 0).1 = List.range (totalCondBrCount Fs)
    ∧ List.Pairwise (· < ·) (runIDs Fs 0).1
    ∧ (runIDs Fs 0).1.Nodup
    ∧ (runIDs Fs 0).2 = totalCondBrCount Fs := by
  have h := runIDs_spec Fs 0
  have hr : (runIDs Fs 0).1 = List.range (totalCondBrCount Fs) := by
    rw [h.1, List.range_eq_range']
  refine ⟨hr, ?_, ?_, by simpa using h.2⟩
  · rw [hr]; exact List.pairwise_lt_range _
  · rw [hr]; exact List.nodup_range _

theorem instrumentBlocks_length (Bs : List Block) (c : Nat) :
    (instrumentBlocks c Bs).1.length = Bs.length := by
  induction Bs generalizing c with
  | nil => simp [instrumentBlocks]
  | cons B rest ih => simp [instrumentBlocks, ih]

theorem instrumentBlock_counter (c : Nat) (B : Block) :
    (instrumentBlock c B).2 = c + (if isCondBrTerm B then 1 else 0) := by
  unfold instrumentBlock isCondBrTerm
  cases hT : B.terminator with
  | none => simp
  | some T =>
    obtain ⟨k, ops⟩ := T
    cases k
    case brI cnd s => cases cnd <;> simp
    all_goals simp

theorem instrumentBlocks_counter (Bs : List Block) (c : Nat) :
    (instrumentBlocks c Bs).2 = c + condBrCount Bs := by
  induction Bs generalizing c with
  | nil => simp [instrumentBlocks, condBrCount]
  | cons B rest ih =>
    simp only [instrumentBlocks, condBrCount, ih, instrumentBlock_counter]
    omega

theorem instrumentBlocks_getD (Bs : List Block) (c j : Nat) (hj : j < Bs.length) :
    (instrumentBlocks c Bs).1.getD j default
      = (instrumentBlock (c + condBrCount (Bs.take j)) (Bs.getD j default)).1 := by
  induction Bs generalizing c j with
  | nil => simp at hj
  | cons B rest ih =>
    cases j with
    | zero => simp [instrumentBlocks, condBrCount]
    | succ j =>
      have hj' : j < rest.length := by simpa using hj
      simp only [instrumentBlocks, List.getD_cons_succ, List.take_succ_cons, condBrCount]
      rw [ih _ j hj', instrumentBlock_counter]
      congr 2
      omega

/-- **C7**: the runtime instrumenter inserts, immediately before every
conditional branch terminator of a routine and before no other instruction
(blocks without a conditional branch are returned unchanged, and a modified
block is exactly the original with one logging call spliced in before its
terminator), a call to `logBranchOutcome` whose arguments are a branch
identifier and the branch's controlling condition; the identifiers come
from the instrumenter's own counter — a parameter of `instrumentFunc`
threaded independently of the extractor's `runIDs` counter — which
increases by exactly one per instrumented branch in traversal order. -/
theorem c7_instrumenter (F : Func) (c0 j : Nat) (hj : j < F.blocks.length) :
    (instrumentFunc F c0).1.blocks.length = F.blocks.length
    ∧ (instrumentFunc F c0).2 = c0 + condBrCount F.blocks
    ∧ (∀ (T : Instr) (cond : Value) (succs : List Nat) (ops : List Value),
        (F.blocks.getD j default).terminator = some T →
        T = ⟨.brI (some cond) succs, ops⟩ →
        ((instrumentFunc F c0).1.blocks.getD j default).instrs
          = (F.blocks.getD j default).instrs.dropLast
              ++ [mkLogCall (c0 + condBrCount (F.blocks.take j)) cond, T])
    ∧ (isCondBrTerm (F.blocks.getD j default) = false →
        (instrumentFunc F c0).1.blocks.getD j default = F.blocks.getD j default) := by
  refine ⟨instrumentBlocks_length _ _, instrumentBlocks_counter _ _, ?_, ?_⟩
  · intro T cond succs ops hT hTeq
    subst hTeq
    rw [show (instrumentFunc F c0).1.blocks = (instrumentBlocks c0 F.blocks).1 from rfl,
      instrumentBlocks_getD F.blocks c0 j hj]
    unfold instrumentBlock
    rw [hT]
  · intro hnc
    rw [show (instrumentFunc F c0).1.blocks = (instrumentBlocks c0 F.blocks).1 from rfl,
      instrumentBlocks_getD F.blocks c0 j hj]
    unfold isCondBrTerm at hnc
    unfold instrumentBlock
    cases hT : (F.blocks.getD j default).terminator with
    | none => rfl
    | some T =>
      rw [hT] at hnc
      obtain ⟨k, ops⟩ := T
      cases k <;> simp at hnc ⊢
      rename_i cnd s
      cases cnd
      · simp
      · simp at hnc

/-- Witness for `c7_instrumenter`: a two-block routine whose entry ends in
a conditional branch gets the call `logBranchOutcome(5, cond)` right before
its terminator when the counter starts at 5. -/
theorem c7_instrumenter_witness :
    let cond : Value := ⟨.instrResult false false, false⟩
    let term : Instr := ⟨.brI (some cond) [0, 1], [cond]⟩
    let F : Func := ⟨[⟨"entry", "0", [⟨.otherI, []⟩, term]⟩, ⟨"exit", "1", [⟨.retI, []⟩]⟩]⟩
    ((instrumentFunc F 5).1.blocks.getD 0 default).instrs
      = [⟨.otherI, []⟩, mkLogCall 5 cond, term]
    ∧ (instrumentFunc F 5).2 = 6 := by
  have h := c7_instrumenter
    ⟨[⟨"entry", "0", [⟨.otherI, []⟩, ⟨.brI (some ⟨.instrResult false false, false⟩) [0, 1],
        [⟨.instrResult false false, false⟩]⟩]⟩, ⟨"exit", "1", [⟨.retI, []⟩]⟩]⟩
    5 0 (by decide)
  obtain ⟨-, hc, hins, -⟩ := h
  refine ⟨?_, by rw [hc]; decide⟩
  rw [hins ⟨.brI (some ⟨.instrResult false false, false⟩) [0, 1],
    [⟨.instrResult false false, false⟩]⟩ ⟨.instrResult false false, false⟩ [0, 1]
    [⟨.instrResult false false, false⟩] (by decide) rfl]
  decide

/-! ### Claims about the log sink -/

/-- **C8**: if the program identity resolves to `myprog` via the
`PROGRAM_NAME` environment variable and exactly two events `(3,true)` then
`(3,false)` are logged, then `branch_history_logs/myprog_branch_history.log`
contains exactly the line `3,1` followed by the line `3,0`, in that order,
each write flushed immediately (the stream buffer is empty after each
event).  This holds whether or not the directory probe succeeds. -/
theorem c8_two_events_logged (dirOk : Bool) :
    let env : LogEnv := ⟨some "myprog", dirOk, true⟩
    let st1 := logBranchOutcome env 3 true initLogState
    let st2 := logBranchOutcome env 3 false st1
    st1.openFile = some "branch_history_logs/myprog_branch_history.log"
    ∧ st1.fileContents = ["3,1"] ∧ st1.buffer = []
    ∧ st2.openFile = some "branch_history_logs/myprog_branch_history.log"
    ∧ st2.fileContents = ["3,1", "3,0"] ∧ st2.buffer = [] := by
  cases dirOk <;> decide

/-- **C9**: when the log file fails to open, `logBranchOutcome` emits an
error message naming the attempted path (preceded by the directory warning
exactly when the probe fails — the sink never creates the directory, the
environment being read-only in the model), drops the event leaving the
stream state unchanged (still closed, file contents and buffer untouched),
and never aborts (`logBranchOutcome` is a total function); the open
sequence is attempted again unconditionally on the next event, so a
subsequent event whose open succeeds does open the file. -/
theorem c9_open_failure (env env2 : LogEnv) (id id2 : Nat) (t t2 : Bool)
    (st : LogState) (hclosed : st.openFile = none) (hfail : env.openOk = false) :
    (logBranchOutcome env id t st).openFile = none
    ∧ (logBranchOutcome env id t st).fileContents = st.fileContents
    ∧ (logBranchOutcome env id t st).buffer = st.buffer
    ∧ (∃ pn, (logBranchOutcome env id t st).programName = some pn
        ∧ (logBranchOutcome env id t st).stderrMsgs =
            st.stderrMsgs ++ (if env.dirProbeOk then [] else [dirWarning])
              ++ ["Failed to open " ++ logPathOf pn])
    ∧ (env2.openOk = true →
        ((logBranchOutcome env2 id2 t2 (logBranchOutcome env id t st)).openFile).isSome = true) := by
  obtain ⟨pnm, opf, fc, buf, errs⟩ := st
  simp only [LogState.openFile] at hclosed
  subst hclosed
  obtain ⟨pne, dpo, opo⟩ := env
  simp only [LogEnv.openOk] at hfail
  subst hfail
  cases pnm <;> cases pne <;> cases dpo <;>
    simp [logBranchOutcome, writeAndFlush, setProgramName] <;>
    intro h2 <;> simp [logBranchOutcome, h2, writeAndFlush]

/-- **C10 fails on the code**: in a run where the first `logBranchOutcome`
call resolves the identity to `first` (from `PROGRAM_NAME`) but the open
fails, a later `setProgramName "second"` call replaces the cached identity,
and the next event opens `branch_history_logs/second_branch_history.log` —
a different path from the one the resolved identity gave. -/
theorem c10_counterexample :
    let env1 : LogEnv := ⟨some "first", true, false⟩
    let env2 : LogEnv := ⟨some "first", true, true⟩
    let st1 := logBranchOutcome env1 0 true initLogState
    let st3 := logBranchOutcome env2 1 true (setProgramName "second" st1)
    st1.programName = some "first"
    ∧ st1.stderrMsgs = ["Failed to open " ++ logPathOf "first"]
    ∧ st3.openFile = some "branch_history_logs/second_branch_history.log"
    ∧ st3.openFile ≠ some (logPathOf "first") := by
  decide

/-- **C10 (amended)**: once the file has opened successfully, subsequent
events append to that same stream without changing its path or the cached
identity, and `setProgramName` never touches the stream; moreover once the
identity is cached, the environment's `PROGRAM_NAME` is never consulted
again: two calls whose environments agree on probe and open success (but may
differ on `PROGRAM_NAME`) behave identically.  (A `setProgramName` call made
before a successful open, however, does replace the cached identity — see
the counterexample.) -/
theorem c10_amended (env : LogEnv) (id : Nat) (t : Bool) (st : LogState) :
    (∀ p, st.openFile = some p →
       (logBranchOutcome env id t st).openFile = some p
       ∧ (logBranchOutcome env id t st).fileContents
           = st.fileContents ++ st.buffer ++ [toString id ++ "," ++ (if t then "1" else "0")]
       ∧ (logBranchOutcome env id t st).buffer = []
       ∧ (logBranchOutcome env id t st).programName = st.programName)
    ∧ (∀ s, (setProgramName s st).openFile = st.openFile
        ∧ (setProgramName s st).fileContents = st.fileContents
        ∧ (setProgramName s st).buffer = st.buffer)
    ∧ (∀ env2 : LogEnv, ∀ pn, st.programName = some pn →
        env2.dirProbeOk = env.dirProbeOk → env2.openOk = env.openOk →
        logBranchOutcome env2 id t st = logBranchOutcome env id t st) := by
  refine ⟨?_, ?_, ?_⟩
  · intro p hp
    simp [logBranchOutcome, hp, writeAndFlush]
  · intro s
    simp [setProgramName]
  · intro env2 pn hpn hdir hopen
    cases h : st.openFile <;>
      simp [logBranchOutcome, hpn, hdir, hopen]

/-- Witness for `c10_amended` at concrete inputs. -/
theorem c10_amended_witness :
    let st : LogState := ⟨some "p", some "f.log", ["0,1"], [], []⟩
    (logBranchOutcome ⟨none, true, true⟩ 7 false st).openFile = some "f.log"
    ∧ (logBranchOutcome ⟨none, true, true⟩ 7 false st).fileContents = ["0,1", "7,0"] := by
  have h := c10_amended ⟨none, true, true⟩ 7 false ⟨some "p", some "f.log", ["0,1"], [], []⟩
  obtain ⟨h1, -, -⟩ := h
  obtain ⟨ho, hf, -, -⟩ := h1 "f.log" rfl
  exact ⟨ho, by rw [hf]; decide⟩

/-- Witness for `c9_open_failure` at concrete inputs. -/
theorem c9_open_failure_witness :
    (logBranchOutcome ⟨some "q", true, false⟩ 5 true initLogState).openFile = none
    ∧ ((logBranchOutcome ⟨some "q", true, true⟩ 6 false
          (logBranchOutcome ⟨some "q", true, false⟩ 5 true initLogState)).openFile).isSome
        = true := by
  have h := c9_open_failure ⟨some "q", true, false⟩ ⟨some "q", true, true⟩ 5 6 true false
    initLogState rfl rfl
  exact ⟨h.1, h.2.2.2.2 rfl⟩

/-! ### The feature pipeline, pointwise -/

theorem foldl_mark_apply (blks : List Nat) (m : FeatMap) (j i : Nat) :
    blks.foldl (fun m2 b => setBlock m2 b (fun f => { f with in_loop := 1 })) m j i
      = if j ∈ blks then { m j i with in_loop := 1 } else m j i := by
  induction blks generalizing m with
  | nil => simp
  | cons b rest ih =>
    rw [List.foldl_cons, ih]
    by_cases hb : j ∈ rest <;> by_cases hjb : j = b <;> simp [setBlock, hb, hjb]

mutual
theorem markLoop_apply (L : LoopT) (m : FeatMap) (j i : Nat) :
    markLoop L m j i = if containsBB L j then { m j i with in_loop := 1 } else m j i := by
  cases L with
  | node blks subs =>
    rw [markLoop, containsBB, markLoopList_apply subs _ j i, foldl_mark_apply]
    by_cases h1 : containsBBList subs j = true <;> by_cases h2 : j ∈ blks <;> simp [h1, h2]
theorem markLoopList_apply (Ls : List LoopT) (m : FeatMap) (j i : Nat) :
    markLoopList Ls m j i
      = if containsBBList Ls j then { m j i with in_loop := 1 } else m j i := by
  cases Ls with
  | nil => simp [markLoopList, containsBBList]
  | cons L rest =>
    rw [markLoopList, containsBBList, markLoopList_apply rest _ j i, markLoop_apply L m j i]
    by_cases h1 : containsBB L j = true <;> by_cases h2 : containsBBList rest j = true <;>
      simp [h1, h2]
end

theorem foldl_range_apply (upd : FeatMap → Nat → FeatMap)
    (G : Nat → Nat → InstructionFeatures → InstructionFeatures)
    (hloc : ∀ m k j i, j ≠ k → upd m k j i = m j i)
    (hset : ∀ m k i, upd m k k i = G k i (m k i))
    (n j i : Nat) (m : FeatMap) :
    ((List.range n).foldl upd m) j i = if j < n then G j i (m j i) else m j i := by
  induction n with
  | zero => simp
  | succ n ih =>
    rw [List.range_succ, List.foldl_append, List.foldl_cons, List.foldl_nil]
    by_cases hj : j = n
    · subst hj
      rw [hset, ih]
      simp
    · rw [hloc _ _ _ _ hj, ih]
      by_cases hlt : j < n
      · simp [hlt, Nat.lt_succ_of_lt hlt]
      · have hlt2 : ¬ j < n + 1 := by omega
        simp [hlt, hlt2]

theorem loopDepthPass_apply (F : Func) (forest : List LoopT) (m : FeatMap) (j i : Nat) :
    loopDepthPass F forest m j i
      = if j < F.blocks.length then
          (match depthInList forest j with
           | some d => { m j i with loop_depth := d }
           | none => m j i)
        else m j i := by
  unfold loopDepthPass
  refine foldl_range_apply _
    (fun k _ f => match depthInList forest k with
      | some d => { f with loop_depth := d }
      | none => f) ?_ ?_ _ j i m
  · intro m2 k j' i' hne
    cases h : depthInList forest k <;> simp [h, setBlock, hne]
  · intro m2 k i'
    cases h : depthInList forest k <;> simp [h, setBlock]

theorem distPass_apply (F : Func) (m : FeatMap) (j i : Nat) :
    distPass F m j i
      = if j < F.blocks.length then
          (match (instrDists F j)[i]? with
           | some d => { m j i with dist_to_control_flow := d }
           | none => m j i)
        else m j i := by
  unfold distPass
  refine foldl_range_apply _
    (fun k i' f => match (instrDists F k)[i']? with
      | some d => { f with dist_to_control_flow := d }
      | none => f) ?_ ?_ _ j i m
  · intro m2 k j' i' hne
    simp [setBlockIdx, hne]
  · intro m2 k i'
    simp [setBlockIdx]

theorem bbPass_apply (F : Func) (m : FeatMap) (j i : Nat) :
    bbPass F m j i
      = if j < F.blocks.length then
          { m j i with num_predecessors := (predsOf F j).length,
                       num_successors := (succsOf F j).length }
        else m j i := by
  unfold bbPass
  refine foldl_range_apply _
    (fun k _ f => { f with num_predecessors := (predsOf F k).length,
                           num_successors := (succsOf F k).length }) ?_ ?_ _ j i m
  · intro m2 k j' i' hne
    simp [setBlock, hne]
  · intro m2 k i'
    simp [setBlock]

theorem instrPass_apply (F : Func) (m : FeatMap) (j i : Nat) :
    instrPass F m j i
      = if j < F.blocks.length then
          (match (F.blocks.getD j default).instrs[i]? with
           | some I =>
             { m j i with op_type_is_memory_access := (instrFlags I).1,
                          op_type_is_register_operand := (instrFlags I).2.1,
                          op_type_is_immediate := (instrFlags I).2.2,
                          num_operands := I.operands.length }
           | none => m j i)
        else m j i := by
  unfold instrPass
  refine foldl_range_apply _
    (fun k i' f => match (F.blocks.getD k default).instrs[i']? with
      | some I =>
        { f with op_type_is_memory_access := (instrFlags I).1,
                 op_type_is_register_operand := (instrFlags I).2.1,
                 op_type_is_immediate := (instrFlags I).2.2,
                 num_operands := I.operands.length }
      | none => f) ?_ ?_ _ j i m
  · intro m2 k j' i' hne
    simp [setBlockIdx, hne]
  · intro m2 k i'
    simp [setBlockIdx]

theorem revScan_length (l : List Instr) (c : Nat) : (revScan l c).length = l.length := by
  induction l generalizing c with
  | nil => simp [revScan]
  | cons I rest ih => by_cases h : isCtrl I <;> simp [revScan, h, ih]

theorem instrDists_length (F : Func) (j : Nat) :
    (instrDists F j).length = (F.blocks.getD j default).instrs.length := by
  simp [instrDists, revScan_length]

/-- Pointwise characterization of the emitted feature record: each field
holds the value its computing pass produces. -/
theorem featAt_spec (F : Func) (forest : List LoopT) (j i : Nat)
    (hj : j < F.blocks.length) (hi : i < (F.blocks.getD j default).instrs.length) :
    featAt F forest j i =
      { in_loop := if containsBBList forest j then 1 else 0,
        dist_to_control_flow := (instrDists F j).getD i 999,
        num_predecessors := (predsOf F j).length,
        num_successors := (succsOf F j).length,
        loop_depth := (depthInList forest j).getD 0,
        op_type_is_memory_access := (instrFlags (instrAt F j i)).1,
        op_type_is_register_operand := (instrFlags (instrAt F j i)).2.1,
        op_type_is_immediate := (instrFlags (instrAt F j i)).2.2,
        num_operands := (instrAt F j i).operands.length } := by
  have hlen : i < (instrDists F j).length := by rw [instrDists_length]; exact hi
  have hdi : (instrDists F j)[i]? = some ((instrDists F j).getD i 999) := by
    rw [List.getElem?_eq_getElem hlen, List.getD_eq_getElem _ _ hlen]
  have hIi : (F.blocks.getD j default).instrs[i]? = some (instrAt F j i) := by
    rw [List.getElem?_eq_getElem hi]
    simp only [instrAt]
    rw [List.getD_eq_getElem _ _ hi]
  unfold featAt runFeatures markLoopPass
  rw [instrPass_apply, if_pos hj, hIi, bbPass_apply, if_pos hj, distPass_apply, if_pos hj,
    hdi, loopDepthPass_apply, if_pos hj, markLoopList_apply]
  cases hdl : depthInList forest j <;> by_cases hc : containsBBList forest j = true <;>
    simp [initFeatures, hdl, hc]

/-! ### The reverse distance scan (claims C1 and C5) -/

theorem getD_reverse (l : List Instr) (i : Nat) (d : Instr) (hi : i < l.length) :
    l.reverse.getD (l.length - 1 - i) d = l.getD i d := by
  have h1 : l.length - 1 - i < l.reverse.length := by rw [List.length_reverse]; omega
  rw [List.getD_eq_getElem _ _ h1, List.getD_eq_getElem _ _ hi, List.getElem_reverse]
  congr 1
  omega

theorem revScan_ctrl_zero (l : List Instr) (c i : Nat) (hi : i < l.length)
    (hc : isCtrl (l.getD i ⟨.otherI, []⟩) = true) :
    (revScan l c).getD i 999 = 0 := by
  induction l generalizing c i with
  | nil => simp at hi
  | cons I rest ih =>
    cases i with
    | zero =>
      rw [List.getD_cons_zero] at hc
      simp [revScan, hc]
    | succ i =>
      have hi' : i < rest.length := by simpa using hi
      have hc' : isCtrl (rest.getD i ⟨.otherI, []⟩) = true := by simpa using hc
      by_cases h : isCtrl I
      · rw [revScan, if_pos h, List.getD_cons_succ]
        exact ih 1 i hi' hc'
      · rw [revScan, if_neg h, List.getD_cons_succ]
        exact ih _ i hi' hc'

theorem revScan_val (l : List Instr) (c : Nat) (hc1 : 1 ≤ c) (hc2 : c + l.length ≤ 999) :
    ∀ i, i < l.length →
      (((revScan l c).getD i 999 = 0) ↔ isCtrl (l.getD i ⟨.otherI, []⟩) = true)
        ∧ (revScan l c).getD i 999 ≤ 998 := by
  induction l generalizing c with
  | nil => intro i hi; simp at hi
  | cons I rest ih =>
    intro i hi
    rw [List.length_cons] at hc2
    by_cases h : isCtrl I
    · cases i with
      | zero => simp [revScan, h]
      | succ i =>
        have hi' : i < rest.length := by simpa using hi
        have := ih 1 (by omega) (by omega) i hi'
        simpa [revScan, h] using this
    · have hc999 : c < 999 := by omega
      cases i with
      | zero =>
        have hcne : ¬ c = 0 := by omega
        have hcle : c ≤ 998 := by omega
        simp [revScan, h, hcne, hcle]
      | succ i =>
        have hi' : i < rest.length := by simpa using hi
        have hinc : (if c < 999 then c + 1 else c) = c + 1 := by simp [hc999]
        have := ih (c + 1) (by omega) (by omega) i hi'
        simpa [revScan, h, hinc] using this

theorem revScan_nonctrl :
    ∀ (l : List Instr) (c : Nat), (∀ I ∈ l, isCtrl I = false) → c + l.length ≤ 999 →
      revScan l c = List.range' c l.length := by
  intro l
  induction l with
  | nil => intro c h hc; simp [revScan]
  | cons I rest ih =>
    intro c h hc
    rw [List.length_cons] at hc
    have hI := h I (by simp)
    have hc999 : c < 999 := by omega
    have hrest : ∀ I2 ∈ rest, isCtrl I2 = false := fun I2 h2 => h I2 (List.mem_cons_of_mem _ h2)
    have hc' : c + 1 + rest.length ≤ 999 := by omega
    simp [revScan, hI, hc999, ih (c + 1) hrest hc', List.range'_succ]

theorem instrDists_getD_eq (F : Func) (j i : Nat)
    (hi : i < (F.blocks.getD j default).instrs.length) :
    (instrDists F j).getD i 999
      = if (revScan (F.blocks.getD j default).instrs.reverse 0).getD
            ((F.blocks.getD j default).instrs.length - 1 - i) 999 = 999
        then (blockDistances F).getD j 999
        else (revScan (F.blocks.getD j default).instrs.reverse 0).getD
            ((F.blocks.getD j default).instrs.length - 1 - i) 999 := by
  have h1 : i < (instrDists F j).length := by rw [instrDists_length]; exact hi
  have h2 : (F.blocks.getD j default).instrs.length - 1 - i
      < (revScan (F.blocks.getD j default).instrs.reverse 0).length := by
    rw [revScan_length, List.length_reverse]; omega
  rw [List.getD_eq_getElem _ _ h1]
  simp only [List.getD_eq_getElem _ _ h2]
  simp only [instrDists, List.getElem_map, List.getElem_reverse, List.length_reverse,
    List.length_map, revScan_length]

/-- **C1 fails on the code**: a single-block routine whose only
instruction is a non-control terminator (e.g. `unreachable`) is emitted
with `dist_to_control_flow = 0` although it is none of branch, call,
return, indirect-branch, switch — the reverse scan's running counter
starts at 0, so the last instruction of a block receives 0 even when it is
not a control point. -/
theorem c1_counterexample :
    let F : Func := ⟨[⟨"entry", "0", [⟨.otherI, []⟩]⟩]⟩
    (featAt F [] 0 0).dist_to_control_flow = 0 ∧ isCtrl ⟨.otherI, []⟩ = false := by
  decide

/-- **C1 (amended)**: every control-point instruction is emitted with
`dist_to_control_flow = 0`; conversely, inside a block whose terminator is
itself a control-point instruction and which holds at most 999
instructions, an emitted distance of 0 does imply the instruction is a
control point.  (Both caveats are necessary: a non-control terminator
receives the initial counter value 0, and in a longer block the saturated
sentinel 999 is replaced by the block distance, which is 0 for a
control-terminated block.) -/
theorem c1_amended (F : Func) (forest : List LoopT) (j i : Nat)
    (hj : j < F.blocks.length) (hi : i < (F.blocks.getD j default).instrs.length) :
    (isCtrl (instrAt F j i) = true → (featAt F forest j i).dist_to_control_flow = 0)
    ∧ (∀ T, (F.blocks.getD j default).terminator = some T → isCtrl T = true →
        (F.blocks.getD j default).instrs.length ≤ 999 →
        (featAt F forest j i).dist_to_control_flow = 0 → isCtrl (instrAt F j i) = true) := by
  have hd : (featAt F forest j i).dist_to_control_flow = (instrDists F j).getD i 999 := by
    rw [featAt_spec F forest j i hj hi]
  rw [hd, instrDists_getD_eq F j i hi]
  constructor
  · intro hctrl
    have hrev : (F.blocks.getD j default).instrs.reverse.getD
        ((F.blocks.getD j default).instrs.length - 1 - i) ⟨.otherI, []⟩ = instrAt F j i :=
      getD_reverse _ i _ hi
    have hz := revScan_ctrl_zero (F.blocks.getD j default).instrs.reverse 0
      ((F.blocks.getD j default).instrs.length - 1 - i)
      (by rw [List.length_reverse]; omega) (by rw [hrev]; exact hctrl)
    rw [hz]
    simp
  · intro T hterm hTctrl hlen hdist
    set L := (F.blocks.getD j default).instrs with hL
    have hne : L ≠ [] := by
      intro h0
      rw [h0] at hi
      simp at hi
    have hTlast : T = L.getLast hne := by
      have h2 := List.getLast?_eq_getLast L hne
      unfold Block.terminator at hterm
      rw [← hL, h2] at hterm
      exact (Option.some_injective _ hterm).symm
    have hsplit : L.reverse = T :: L.dropLast.reverse := by
      conv_lhs => rw [← List.dropLast_append_getLast hne]
      rw [List.reverse_append, ← hTlast]
      rfl
    rw [hsplit,
      show revScan (T :: L.dropLast.reverse) 0 = 0 :: revScan L.dropLast.reverse 1 from by
        rw [revScan, if_pos hTctrl]] at hdist
    rcases Nat.eq_zero_or_pos (L.length - 1 - i) with hk | hk
    · -- the scanned position is the terminator itself
      have hieq : i = L.length - 1 := by omega
      have hT : instrAt F j i = T := by
        unfold instrAt
        rw [← hL, List.getD_eq_getElem _ _ hi, hTlast, List.getLast_eq_getElem]
        simp only [hieq]
      rw [hT]
      exact hTctrl
    · -- a position strictly before the terminator
      obtain ⟨k, hkeq⟩ : ∃ k, L.length - 1 - i = k + 1 := ⟨L.length - 1 - i - 1, by omega⟩
      rw [hkeq, List.getD_cons_succ] at hdist
      have hkR : k < L.dropLast.reverse.length := by
        rw [List.length_reverse, List.length_dropLast]; omega
      have hv := revScan_val L.dropLast.reverse 1 (by omega)
        (by rw [List.length_reverse, List.length_dropLast]; omega) k hkR
      have hb := hv.2
      have hval : (revScan L.dropLast.reverse 1).getD k 999 = 0 := by
        by_contra h0
        rw [if_neg (by omega : ¬ (revScan L.dropLast.reverse 1).getD k 999 = 999)] at hdist
        omega
      have hctrl' := (hv.1).mp hval
      have hidx : L.dropLast.reverse.getD k ⟨.otherI, []⟩ = instrAt F j i := by
        have hiL : i < L.dropLast.length := by rw [List.length_dropLast]; omega
        have hk2 : L.dropLast.length - 1 - i = k := by rw [List.length_dropLast]; omega
        rw [← hk2, getD_reverse _ i _ hiL]
        unfold instrAt
        rw [← hL, List.getD_eq_getElem _ _ hiL, List.getD_eq_getElem _ _ hi,
          List.getElem_dropLast]
      rw [hidx] at hctrl'
      exact hctrl'

/-- Witness for `c1_amended`: a block `[other, ret]` — the return gets
distance 0 and the non-control instruction before it does not. -/
theorem c1_amended_witness :
    let F : Func := ⟨[⟨"entry", "0", [⟨.otherI, []⟩, ⟨.retI, []⟩]⟩]⟩
    (featAt F [] 0 1).dist_to_control_flow = 0
    ∧ ((featAt F [] 0 0).dist_to_control_flow = 0 → isCtrl (instrAt F 0 0) = true) := by
  have h1 := c1_amended ⟨[⟨"entry", "0", [⟨.otherI, []⟩, ⟨.retI, []⟩]⟩]⟩ [] 0 1
    (by decide) (by decide)
  have h2 := c1_amended ⟨[⟨"entry", "0", [⟨.otherI, []⟩, ⟨.retI, []⟩]⟩]⟩ [] 0 0
    (by decide) (by decide)
  exact ⟨h1.1 (by decide), fun hd => h2.2 ⟨.retI, []⟩ (by decide) (by decide) (by decide) hd⟩

/-- **C5 (amended)**: for a single-block routine whose terminator is a
return preceded by `k ≤ 998` non-control instructions, the emitted
distances are `k, k-1, …, 1, 0` in program order.  (For `k ≥ 999` the
counter saturates at the sentinel and the fallback rewrites it to the
block distance 0 — see the counterexample.) -/
theorem c5_amended (pre : List Instr) (retOps : List Value) (nm tid : String)
    (hnc : ∀ I ∈ pre, isCtrl I = false) (hk : pre.length ≤ 998) :
    (List.range (pre.length + 1)).map
        (fun i => (featAt ⟨[⟨nm, tid, pre ++ [⟨.retI, retOps⟩]⟩]⟩ [] 0 i).dist_to_control_flow)
      = (List.range (pre.length + 1)).reverse := by
  set F : Func := ⟨[⟨nm, tid, pre ++ [⟨.retI, retOps⟩]⟩]⟩ with hF
  have hinstrs : (F.blocks.getD 0 default).instrs = pre ++ [(⟨.retI, retOps⟩ : Instr)] := rfl
  have hdists : instrDists F 0 = (List.range (pre.length + 1)).reverse := by
    unfold instrDists
    rw [hinstrs, show (pre ++ [(⟨.retI, retOps⟩ : Instr)]).reverse
        = ⟨.retI, retOps⟩ :: pre.reverse from by simp]
    rw [show revScan (⟨.retI, retOps⟩ :: pre.reverse) 0
        = 0 :: revScan pre.reverse 1 from by rw [revScan]; rfl]
    rw [revScan_nonctrl pre.reverse 1 (fun I hI => hnc I (List.mem_reverse.mp hI))
      (by rw [List.length_reverse]; omega)]
    rw [List.length_reverse]
    rw [show (0 :: List.range' 1 pre.length).reverse
        = (List.range' 1 pre.length).reverse ++ [0] from by simp]
    have hfb : ∀ d ∈ (List.range' 1 pre.length).reverse ++ [0],
        (if d = 999 then (blockDistances F).getD 0 999 else d) = d := by
      intro d hd
      have hlt : d < 999 := by
        rcases List.mem_append.mp hd with h1 | h1
        · have h2 := List.mem_range'_1.mp (List.mem_reverse.mp h1)
          omega
        · simp at h1
          omega
      rw [if_neg (by omega)]
    rw [List.map_congr_left hfb, List.range_eq_range', List.range'_succ]
    simp
  apply List.ext_getElem
  · simp
  · intro i h1 h2
    simp only [List.getElem_map, List.getElem_range]
    have hilen : i < (F.blocks.getD 0 default).instrs.length := by
      rw [hinstrs]
      simp only [List.length_map, List.length_range] at h1
      simp only [List.length_append, List.length_singleton]
      omega
    have hfs : (featAt F [] 0 i).dist_to_control_flow = (instrDists F 0).getD i 999 := by
      rw [featAt_spec F [] 0 i Nat.zero_lt_one hilen]
    rw [hfs, hdists, List.getD_eq_getElem _ _ (by simpa using h2)]

/-- Witness for `c5_amended` at `k = 2`. -/
theorem c5_amended_witness :
    (List.range 3).map
        (fun i => (featAt ⟨[⟨"b", "0", [⟨.otherI, []⟩, ⟨.otherI, []⟩] ++ [⟨.retI, []⟩]⟩]⟩
          [] 0 i).dist_to_control_flow)
      = (List.range 3).reverse := by
  have h := c5_amended [⟨.otherI, []⟩, ⟨.otherI, []⟩] [] "b" "0" (by decide) (by decide)
  exact h

/-- For a run of non-control instructions the counter value saturates:
position `i` (counting from the start of the scan) receives
`min (c + i) 999`. -/
theorem revScan_nonctrl_getD (l : List Instr) :
    ∀ (c i : Nat), (∀ I ∈ l, isCtrl I = false) → c ≤ 999 → i < l.length →
      (revScan l c).getD i 999 = min (c + i) 999 := by
  induction l with
  | nil =>
    intro c i h hc hi
    simp at hi
  | cons I rest ih =>
    intro c i h hc hi
    have hI := h I (by simp)
    rw [revScan, if_neg (by simp [hI])]
    cases i with
    | zero =>
      rw [List.getD_cons_zero]
      omega
    | succ i =>
      rw [List.getD_cons_succ]
      have hrest : ∀ I2 ∈ rest, isCtrl I2 = false := fun I2 h2 => h I2 (by simp [h2])
      have hi' : i < rest.length := by simpa using hi
      by_cases hlt : c < 999
      · rw [if_pos hlt, ih (c + 1) i hrest (by omega) hi']
        omega
      · rw [if_neg hlt, ih c i hrest hc hi']
        omega

/-- For a one-block routine whose terminator is a successor-less control
point, the block-distance map is the seed `[0]` (the worklist finds no
predecessor to relax). -/
theorem blockDistances_single (B : Block) (T : Instr) (hterm : B.instrs.getLast? = some T)
    (hctrl : isCtrl T = true) (hnosucc : T.succIdxs = []) :
    blockDistances ⟨[B]⟩ = [0] := by
  have hblocks : (Func.mk [B]).blocks = [B] := rfl
  have hpreds : predsOf ⟨[B]⟩ 0 = [] := by
    unfold predsOf succsOf Block.terminator
    rw [hblocks]
    simp only [List.length_singleton]
    rw [show List.range 1 = [0] from rfl]
    simp only [List.filter_cons, List.filter_nil]
    rw [show ([B].getD 0 default).instrs.getLast? = some T from hterm]
    simp [hnosucc]
  have hseedd : seedDist ⟨[B]⟩ = [0] := by
    unfold seedDist Block.terminator
    rw [hblocks]
    simp only [List.map_cons, List.map_nil]
    rw [hterm]
    simp [hctrl]
  have hseedq : seedQueue ⟨[B]⟩ = [0] := by
    unfold seedQueue Block.terminator
    rw [hblocks]
    simp only [List.length_singleton]
    rw [show List.range 1 = [0] from rfl]
    simp only [List.filter_cons, List.filter_nil]
    rw [show ([B].getD 0 default).instrs.getLast? = some T from hterm]
    simp [hctrl]
  have hrelax : wlRelax ⟨[B]⟩ [0] 0 = ([0], []) := by
    unfold wlRelax
    rw [hpreds]
    rfl
  unfold blockDistances
  rw [hseedd, hseedq, hblocks]
  rw [show 1000 * ([B].length + 1) = 1999 + 1 from rfl]
  simp only [worklist]
  rw [hrelax]
  rfl

/-- The emitted distance of the *first* instruction of the 1000-long
block `replicate 999 other ++ [ret]` is 0: the counter saturates at the
sentinel 999 and the fallback substitutes the block distance 0. -/
theorem dist_sat_block_zero :
    (featAt ⟨[⟨"b", "0", List.replicate 999 ⟨.otherI, []⟩ ++ [⟨.retI, []⟩]⟩]⟩
      [] 0 0).dist_to_control_flow = 0 := by
  set P : List Instr := List.replicate 999 ⟨.otherI, []⟩ with hP
  set T : Instr := ⟨.retI, []⟩ with hT
  set F : Func := ⟨[⟨"b", "0", P ++ [T]⟩]⟩ with hF
  have hins : (F.blocks.getD 0 default).instrs = P ++ [T] := rfl
  have hLlen : (P ++ [T]).length = 1000 := by
    rw [List.length_append, hP, List.length_replicate, List.length_singleton]
  have hi0 : 0 < (F.blocks.getD 0 default).instrs.length := by
    rw [hins, hLlen]
    omega
  have hterm : (P ++ [T]).getLast? = some T := List.getLast?_concat _
  have hrev : (P ++ [T]).reverse = T :: P := by
    rw [List.reverse_append, hP, List.reverse_replicate]
    rfl
  have hnc : ∀ I ∈ P, isCtrl I = false := by
    intro I hI
    rw [List.eq_of_mem_replicate hI]
    rfl
  have hsat : (revScan ((F.blocks.getD 0 default).instrs).reverse 0).getD
      ((F.blocks.getD 0 default).instrs.length - 1 - 0) 999 = 999 := by
    rw [hins, hrev, hLlen]
    rw [show revScan (T :: P) 0 = 0 :: revScan P 1 from by rw [revScan]; rfl]
    rw [show (1000 : Nat) - 1 - 0 = 998 + 1 from rfl, List.getD_cons_succ]
    rw [revScan_nonctrl_getD P 1 998 hnc (by omega)
      (by rw [hP, List.length_replicate]; omega)]
    omega
  have hbd : blockDistances F = [0] :=
    blockDistances_single ⟨"b", "0", P ++ [T]⟩ T hterm rfl rfl
  have hd : (featAt F [] 0 0).dist_to_control_flow = (instrDists F 0).getD 0 999 := by
    rw [featAt_spec F [] 0 0 Nat.zero_lt_one hi0]
  rw [hd, instrDists_getD_eq F 0 0 hi0, if_pos hsat, hbd]
  rfl

set_option maxRecDepth 4000 in
/-- **C5 fails on the code** at `k = 999`: the first of the 999 preceding
non-control instructions reaches the saturated counter value 999, which
the fallback then replaces by the block distance 0, so the first emitted
distance is 0 instead of the claimed 999. -/
theorem c5_counterexample :
    ¬ ((List.range 1000).map
        (fun i => (featAt ⟨[⟨"b", "0", List.replicate 999 ⟨.otherI, []⟩ ++ [⟨.retI, []⟩]⟩]⟩
          [] 0 i).dist_to_control_flow)
      = (List.range 1000).reverse) := by
  intro h
  have hh := congrArg List.head? h
  rw [List.head?_map] at hh
  rw [show (List.range 1000).head? = some 0 from by decide] at hh
  rw [show ((List.range 1000).reverse).head? = some 999 from by decide] at hh
  rw [show Option.map
      (fun i => (featAt ⟨[⟨"b", "0", List.replicate 999 ⟨.otherI, []⟩ ++ [⟨.retI, []⟩]⟩]⟩
        [] 0 i).dist_to_control_flow) (some 0)
      = some ((featAt ⟨[⟨"b", "0", List.replicate 999 ⟨.otherI, []⟩ ++ [⟨.retI, []⟩]⟩]⟩
        [] 0 0).dist_to_control_flow) from rfl] at hh
  rw [dist_sat_block_zero] at hh
  have h09 : (0 : Nat) = 999 := Option.some_injective _ hh
  omega

/-! ### The memory-access flag (claim C3) -/

theorem scanOperand_mem (I : Instr) (acc : Bool × Bool × Bool) (V : Value) :
    (scanOperand I acc V).1 = (acc.1 || (isLoadStoreI I || V.isPointerTy || condLoadGEP I)) := by
  obtain ⟨m, r, im⟩ := acc
  obtain ⟨k, ops⟩ := I
  obtain ⟨vs, vp⟩ := V
  cases k
  case brI cnd s =>
    cases cnd with
    | none => cases m <;> cases vp <;> simp [scanOperand, condLoadGEP, isLoadStoreI]
    | some c =>
      cases hg : isLoadOrGEP c <;> cases m <;> cases vp <;>
        simp [scanOperand, condLoadGEP, isLoadStoreI, hg]
  case switchI c s =>
    cases hg : isLoadOrGEP c <;> cases m <;> cases vp <;>
      simp [scanOperand, condLoadGEP, isLoadStoreI, hg]
  all_goals cases m <;> cases vp <;> simp [scanOperand, condLoadGEP, isLoadStoreI]

theorem foldl_scanOperand_mem (I : Instr) (l : List Value) (acc : Bool × Bool × Bool) :
    (l.foldl (scanOperand I) acc).1
      = (acc.1 || l.any (fun V => isLoadStoreI I || V.isPointerTy || condLoadGEP I)) := by
  induction l generalizing acc with
  | nil => simp
  | cons V rest ih =>
    rw [List.foldl_cons, ih, scanOperand_mem]
    simp [List.any_cons, Bool.or_assoc]

theorem any_const_or (l : List Value) (K : Bool) (p : Value → Bool) (h : l.isEmpty = false) :
    l.any (fun V => K || p V) = (K || l.any p) := by
  cases K
  · simp
  · cases l with
    | nil => simp at h
    | cons V rest => simp

/-- The memory flag of one instruction in closed form: some operand was
scanned, and the instruction is a load/store, or some operand is
pointer-typed, or the branch/switch condition re-scan found a load or
`getelementptr` condition. -/
theorem instrFlags_mem (I : Instr) :
    (instrFlags I).1
      = ((!I.operands.isEmpty)
          && (isLoadStoreI I || I.operands.any (fun V => V.isPointerTy) || condLoadGEP I)) := by
  unfold instrFlags
  rw [foldl_scanOperand_mem]
  cases hl : I.operands with
  | nil => simp
  | cons V rest =>
    have hsw : ∀ W : Value, (isLoadStoreI I || W.isPointerTy || condLoadGEP I)
        = ((isLoadStoreI I || condLoadGEP I) || W.isPointerTy) := by
      intro W
      cases isLoadStoreI I <;> cases condLoadGEP I <;> simp
    simp only [hsw]
    rw [any_const_or _ _ _ (by simp)]
    cases isLoadStoreI I <;> cases condLoadGEP I <;> simp

/-- **C3 fails on the code**: a conditional branch whose `i1` condition is
the result of a load instruction — the condition is not pointer-typed, no
operand is pointer-typed and the branch is no load/store, yet the
condition re-scan sets `is_memory_access`. -/
theorem c3_counterexample :
    let condV : Value := ⟨.instrResult true false, false⟩
    let I : Instr := ⟨.brI (some condV) [0, 1],
      [condV, ⟨.other, false⟩, ⟨.other, false⟩]⟩
    let F : Func := ⟨[⟨"b", "0", [I]⟩]⟩
    (featAt F [] 0 0).op_type_is_memory_access = true
    ∧ isLoadStoreI I = false
    ∧ I.operands.any (fun V => V.isPointerTy) = false := by
  decide

/-- **C3 (amended)**: `is_memory_access` is emitted true iff the
instruction has at least one operand and (it is itself a load or store, or
some operand's static type is a pointer, or it is a conditional branch or
switch whose controlling condition is produced by a load or
`getelementptr` instruction). -/
theorem c3_amended (F : Func) (forest : List LoopT) (j i : Nat)
    (hj : j < F.blocks.length) (hi : i < (F.blocks.getD j default).instrs.length) :
    (featAt F forest j i).op_type_is_memory_access
      = ((!(instrAt F j i).operands.isEmpty)
          && (isLoadStoreI (instrAt F j i)
              || (instrAt F j i).operands.any (fun V => V.isPointerTy)
              || condLoadGEP (instrAt F j i))) := by
  have h1 : (featAt F forest j i).op_type_is_memory_access = (instrFlags (instrAt F j i)).1 := by
    rw [featAt_spec F forest j i hj hi]
  rw [h1, instrFlags_mem]

/-- Witness for `c3_amended`: a store instruction with a pointer operand
is emitted with the memory flag set. -/
theorem c3_amended_witness :
    (featAt ⟨[⟨"b", "0", [⟨.storeI, [⟨.instrResult false false, false⟩, ⟨.other, true⟩]⟩,
      ⟨.retI, []⟩]⟩]⟩ [] 0 0).op_type_is_memory_access = true := by
  rw [c3_amended ⟨[⟨"b", "0", [⟨.storeI, [⟨.instrResult false false, false⟩, ⟨.other, true⟩]⟩,
    ⟨.retI, []⟩]⟩]⟩ [] 0 0 (by decide) (by decide)]
  decide

/-! ### Loop membership and depth (claim C6) -/

theorem containsBBList_false_iff (Ls : List LoopT) (j : Nat) :
    containsBBList Ls j = false ↔ ∀ L ∈ Ls, containsBB L j = false := by
  induction Ls with
  | nil => simp [containsBBList]
  | cons L rest ih => simp [containsBBList, ih]

theorem containsBBList_true_iff (Ls : List LoopT) (j : Nat) :
    containsBBList Ls j = true ↔ ∃ L ∈ Ls, containsBB L j = true := by
  induction Ls with
  | nil => simp [containsBBList]
  | cons L rest ih => simp [containsBBList, ih]

theorem depthIn_isSome_iff (blks : List Nat) (subs : List LoopT) (j : Nat) :
    (depthIn (.node blks subs) j).isSome = true ↔ j ∈ blks := by
  rw [depthIn]
  by_cases h : j ∈ blks
  · cases hm : depthInList subs j <;> simp [h, hm]
  · simp [h]

theorem depthIn_none_of_not_contains (L : LoopT) (j : Nat)
    (h : containsBB L j = false) : depthIn L j = none := by
  cases L with
  | node blks subs =>
    rw [containsBB] at h
    have hj : j ∉ blks := by
      intro hmem
      simp [hmem] at h
    rw [depthIn, if_neg hj]

theorem depthInList_none_of (Ls : List LoopT) (j : Nat)
    (h : ∀ L ∈ Ls, depthIn L j = none) : depthInList Ls j = none := by
  induction Ls with
  | nil => rfl
  | cons L rest ih =>
    rw [depthInList, h L (by simp)]
    exact ih (fun L2 h2 => h L2 (by simp [h2]))

theorem depthIn_pos (blks : List Nat) (subs : List LoopT) (j d : Nat)
    (h : depthIn (.node blks subs) j = some d) : 1 ≤ d := by
  rw [depthIn] at h
  by_cases hj : j ∈ blks
  · rw [if_pos hj] at h
    cases hm : depthInList subs j with
    | none =>
      rw [hm] at h
      injection h with h
      omega
    | some d2 =>
      rw [hm] at h
      injection h with h
      omega
  · rw [if_neg hj] at h
    cases h

theorem depthInList_pos (Ls : List LoopT) (j N : Nat)
    (h : depthInList Ls j = some N) : 1 ≤ N := by
  induction Ls with
  | nil => cases h
  | cons L rest ih =>
    rw [depthInList] at h
    cases hm : depthIn L j with
    | some d =>
      rw [hm] at h
      injection h with h
      obtain ⟨blks, subs⟩ := L
      exact h ▸ depthIn_pos blks subs j d hm
    | none =>
      rw [hm] at h
      exact ih h

theorem depthInList_some_exists (Ls : List LoopT) (j N : Nat)
    (h : depthInList Ls j = some N) : ∃ L ∈ Ls, depthIn L j = some N := by
  induction Ls with
  | nil => cases h
  | cons L rest ih =>
    rw [depthInList] at h
    cases hm : depthIn L j with
    | some d =>
      rw [hm] at h
      injection h with h
      exact ⟨L, by simp, by rw [hm, h]⟩
    | none =>
      rw [hm] at h
      obtain ⟨L2, h2, h3⟩ := ih h
      exact ⟨L2, by simp [h2], h3⟩

theorem depthInList_isSome (Ls : List LoopT) (j : Nat)
    (h : ∃ L ∈ Ls, (depthIn L j).isSome = true) : (depthInList Ls j).isSome = true := by
  induction Ls with
  | nil => simp at h
  | cons L rest ih =>
    rw [depthInList]
    cases hm : depthIn L j with
    | some d => rfl
    | none =>
      obtain ⟨L2, hmem, hs⟩ := h
      rcases List.mem_cons.mp hmem with rfl | h2
      · rw [hm] at hs
        simp at hs
      · exact ih ⟨L2, h2, hs⟩

mutual
theorem containsBB_mem (L : LoopT) (j : Nat) (hwf : WFLoop L)
    (hc : containsBB L j = true) : j ∈ ownBlks L := by
  cases L with
  | node blks subs =>
    rw [containsBB] at hc
    rw [WFLoop] at hwf
    rw [ownBlks]
    rcases Bool.or_eq_true_iff.mp hc with h1 | h2
    · exact of_decide_eq_true h1
    · exact containsBBList_mem blks subs j hwf h2
theorem containsBBList_mem (blks : List Nat) (Ls : List LoopT) (j : Nat)
    (hwf : WFLoopList blks Ls) (hc : containsBBList Ls j = true) : j ∈ blks := by
  cases Ls with
  | nil =>
    rw [containsBBList] at hc
    cases hc
  | cons L rest =>
    rw [containsBBList] at hc
    rw [WFLoopList] at hwf
    obtain ⟨hsub, hwfL, hwfRest⟩ := hwf
    rcases Bool.or_eq_true_iff.mp hc with h1 | h2
    · exact hsub j (containsBB_mem L j hwfL h1)
    · exact containsBBList_mem blks rest j hwfRest h2
end

/-- **C6**: under the LLVM loop-forest invariant (every sub-loop's blocks
listed on its parent), every instruction of a block enclosed by no loop of
the forest is emitted with `in_loop = 0` and `loop_depth = 0`, and every
instruction of a block whose innermost enclosing loop sits at nesting
depth `N` (`depthInList`, 1 = outermost) is emitted with `in_loop = 1` and
`loop_depth = N`; conversely, an instruction emitted with `in_loop = 1`
lies in a block with a well-defined innermost depth `N ≥ 1`, and its
`loop_depth` equals it. -/
theorem c6_loop_features (F : Func) (forest : List LoopT)
    (hwf : ∀ L ∈ forest, WFLoop L) (j i : Nat)
    (hj : j < F.blocks.length) (hi : i < (F.blocks.getD j default).instrs.length) :
    ((∀ L ∈ forest, containsBB L j = false) →
      (featAt F forest j i).in_loop = 0 ∧ (featAt F forest j i).loop_depth = 0)
    ∧ (∀ N, depthInList forest j = some N →
      (featAt F forest j i).in_loop = 1 ∧ (featAt F forest j i).loop_depth = N ∧ 1 ≤ N)
    ∧ ((featAt F forest j i).in_loop = 1 →
      ∃ N, depthInList forest j = some N ∧ (featAt F forest j i).loop_depth = N ∧ 1 ≤ N) := by
  have hin : (featAt F forest j i).in_loop
      = if containsBBList forest j then 1 else 0 := by
    rw [featAt_spec F forest j i hj hi]
  have hdep : (featAt F forest j i).loop_depth = (depthInList forest j).getD 0 := by
    rw [featAt_spec F forest j i hj hi]
  refine ⟨?_, ?_, ?_⟩
  · intro hnone
    have hcl : containsBBList forest j = false := (containsBBList_false_iff forest j).mpr hnone
    have hdl : depthInList forest j = none :=
      depthInList_none_of forest j
        (fun L hL => depthIn_none_of_not_contains L j (hnone L hL))
    rw [hin, hdep, hcl, hdl]
    simp
  · intro N hN
    have hcl : containsBBList forest j = true := by
      obtain ⟨L, hL, hdS⟩ := depthInList_some_exists forest j N hN
      refine (containsBBList_true_iff forest j).mpr ⟨L, hL, ?_⟩
      obtain ⟨blks, subs⟩ := L
      have hmem : j ∈ blks := by
        rw [← depthIn_isSome_iff blks subs j, hdS]
        rfl
      rw [containsBB]
      simp [hmem]
    exact ⟨by rw [hin, hcl]; rfl, by rw [hdep, hN]; rfl, depthInList_pos forest j N hN⟩
  · intro h1
    have hcl : containsBBList forest j = true := by
      by_cases hb : containsBBList forest j = true
      · exact hb
      · rw [hin, if_neg hb] at h1
        omega
    obtain ⟨L, hL, hcb⟩ := (containsBBList_true_iff forest j).mp hcl
    have hmem := containsBB_mem L j (hwf L hL) hcb
    have hS : (depthIn L j).isSome = true := by
      obtain ⟨blks, subs⟩ := L
      rw [ownBlks] at hmem
      exact (depthIn_isSome_iff blks subs j).mpr hmem
    have hS2 := depthInList_isSome forest j ⟨L, hL, hS⟩
    obtain ⟨N, hN⟩ := Option.isSome_iff_exists.mp hS2
    exact ⟨N, hN, by rw [hdep, hN]; rfl, depthInList_pos forest j N hN⟩

/-- Witness for `c6_loop_features`: a doubly nested loop over the single
block gives `in_loop = 1`, `loop_depth = 2`; the empty forest gives
`in_loop = 0`, `loop_depth = 0`. -/
theorem c6_loop_features_witness :
    (featAt ⟨[⟨"b", "0", [⟨.retI, []⟩]⟩]⟩ [.node [0] [.node [0] []]] 0 0).in_loop = 1
    ∧ (featAt ⟨[⟨"b", "0", [⟨.retI, []⟩]⟩]⟩ [.node [0] [.node [0] []]] 0 0).loop_depth = 2
    ∧ (featAt ⟨[⟨"b", "0", [⟨.retI, []⟩]⟩]⟩ [] 0 0).in_loop = 0
    ∧ (featAt ⟨[⟨"b", "0", [⟨.retI, []⟩]⟩]⟩ [] 0 0).loop_depth = 0 := by
  have hwf : ∀ L ∈ [(LoopT.node [0] [.node [0] []])], WFLoop L := by
    intro L hL
    rw [List.mem_singleton] at hL
    subst hL
    rw [WFLoop, WFLoopList]
    refine ⟨?_, ?_, ?_⟩
    · intro b hb
      rw [ownBlks] at hb
      simpa using hb
    · rw [WFLoop, WFLoopList]
      trivial
    · rw [WFLoopList]
      trivial
  have hd : depthInList [(LoopT.node [0] [.node [0] []])] 0 = some 2 := by decide
  have h1 := c6_loop_features ⟨[⟨"b", "0", [⟨.retI, []⟩]⟩]⟩ [.node [0] [.node [0] []]]
    hwf 0 0 (by decide) (by decide)
  have h2 := c6_loop_features ⟨[⟨"b", "0", [⟨.retI, []⟩]⟩]⟩ [] (by simp) 0 0
    (by decide) (by decide)
  obtain ⟨hz1, hz2⟩ := h2.1 (by simp)
  obtain ⟨ha, hb, -⟩ := h1.2.1 2 hd
  exact ⟨ha, hb, hz1, hz2⟩

/-! ### Label extraction (claim C2): parser lemmas -/

theorem startsWith_append_self (p x : List Char) : startsWith p (p ++ x) = true := by
  induction p with
  | nil => rfl
  | cons c cs ih => simp [startsWith, ih]

theorem containsSub_append_self (pat x : List Char) (hp : pat ≠ []) :
    containsSub pat (pat ++ x) = true := by
  cases pat with
  | nil => simp at hp
  | cons p ps =>
    rw [List.cons_append, containsSub,
      show (p :: (ps ++ x)) = (p :: ps) ++ x from rfl, startsWith_append_self]
    rfl

theorem scanLabels_nil : scanLabels [] = [] := by
  rw [scanLabels]

theorem scanLabels_cons (c : Char) (cs : List Char) :
    scanLabels (c :: cs)
      = if startsWith labelPat (c :: cs) then
          (if (((c :: cs).drop 7).takeWhile (fun ch => !(isDelim ch))).isEmpty
           then scanLabels (((c :: cs).drop 7).dropWhile (fun ch => !(isDelim ch)))
           else String.mk (((c :: cs).drop 7).takeWhile (fun ch => !(isDelim ch)))
             :: scanLabels (((c :: cs).drop 7).dropWhile (fun ch => !(isDelim ch))))
        else scanLabels cs := by
  rw [scanLabels]

theorem scanLabels_skip (c : Char) (cs : List Char) (h : c ≠ 'l') :
    scanLabels (c :: cs) = scanLabels cs := by
  have hb : startsWith labelPat (c :: cs) = false := by
    rw [show labelPat = 'l' :: "abel %".data from rfl, startsWith]
    rw [show ('l' == c) = false from beq_eq_false_iff_ne.mpr (Ne.symm h), Bool.false_and]
  rw [scanLabels_cons, if_neg (by simp [hb])]

theorem scanLabels_junk (junk x : List Char) (h : ∀ c ∈ junk, c ≠ 'l') :
    scanLabels (junk ++ x) = scanLabels x := by
  induction junk with
  | nil => rfl
  | cons c cs ih =>
    rw [List.cons_append, scanLabels_skip c _ (h c (by simp))]
    exact ih (fun c2 h2 => h c2 (by simp [h2]))

theorem scanLabels_label (x : List Char) :
    scanLabels (labelPat ++ x)
      = if (x.takeWhile (fun ch => !(isDelim ch))).isEmpty
        then scanLabels (x.dropWhile (fun ch => !(isDelim ch)))
        else String.mk (x.takeWhile (fun ch => !(isDelim ch)))
          :: scanLabels (x.dropWhile (fun ch => !(isDelim ch))) := by
  rw [show labelPat ++ x = 'l' :: ("abel %".data ++ x) from rfl, scanLabels_cons]
  rw [if_pos (show startsWith labelPat ('l' :: ("abel %".data ++ x)) = true from
    startsWith_append_self labelPat x)]
  rw [show ('l' :: ("abel %".data ++ x)).drop 7 = x from rfl]

theorem takeWhile_all (p : Char → Bool) (l : List Char) (h : ∀ a ∈ l, p a = true) :
    l.takeWhile p = l := by
  induction l with
  | nil => rfl
  | cons a rest ih =>
    rw [List.takeWhile_cons, if_pos (by simp [h a (by simp)])]
    rw [ih (fun b hb => h b (by simp [hb]))]

theorem dropWhile_all (p : Char → Bool) (l : List Char) (h : ∀ a ∈ l, p a = true) :
    l.dropWhile p = [] := by
  induction l with
  | nil => rfl
  | cons a rest ih =>
    rw [List.dropWhile_cons, if_pos (by simp [h a (by simp)])]
    exact ih (fun b hb => h b (by simp [hb]))

theorem takeWhile_append_stop (p : Char → Bool) (l1 : List Char) (c : Char) (l2 : List Char)
    (h1 : ∀ a ∈ l1, p a = true) (hc : p c = false) :
    (l1 ++ c :: l2).takeWhile p = l1 := by
  induction l1 with
  | nil =>
    rw [List.nil_append, List.takeWhile_cons, if_neg (by simp [hc])]
  | cons a rest ih =>
    rw [List.cons_append, List.takeWhile_cons, if_pos (by simp [h1 a (by simp)])]
    rw [ih (fun b hb => h1 b (by simp [hb]))]

theorem dropWhile_append_stop (p : Char → Bool) (l1 : List Char) (c : Char) (l2 : List Char)
    (h1 : ∀ a ∈ l1, p a = true) (hc : p c = false) :
    (l1 ++ c :: l2).dropWhile p = c :: l2 := by
  induction l1 with
  | nil =>
    rw [List.nil_append, List.dropWhile_cons, if_neg (by simp [hc])]
  | cons a rest ih =>
    rw [List.cons_append, List.dropWhile_cons, if_pos (by simp [h1 a (by simp)])]
    exact ih (fun b hb => h1 b (by simp [hb]))

/-- The scanning loop recovers exactly the successor identifiers from the
successor part of a printed branch, provided each identifier is nonempty
and delimiter-free. -/
theorem scan_succsTxt (ts : List String)
    (hts : ∀ t ∈ ts, t ≠ "" ∧ ∀ ch ∈ t.data, isDelim ch = false) :
    scanLabels (succsTxt ts).data = ts := by
  induction ts with
  | nil =>
    rw [show (succsTxt []).data = ([] : List Char) from rfl, scanLabels_nil]
  | cons t rest ih =>
    obtain ⟨hne, hdelim⟩ := hts t (by simp)
    have htd : t.data.isEmpty = false := by
      cases hd : t.data with
      | nil =>
        exact absurd (by cases t with | mk d => simp at hd; simp [hd]) hne
      | cons a b => rfl
    cases rest with
    | nil =>
      rw [show (succsTxt [t]).data = labelPat ++ t.data from by
        rw [show succsTxt [t] = "label %" ++ t from rfl, String.data_append]
        rfl]
      rw [scanLabels_label]
      rw [takeWhile_all _ t.data (fun a ha => by simp [hdelim a ha])]
      rw [dropWhile_all _ t.data (fun a ha => by simp [hdelim a ha])]
      rw [if_neg (by simp [htd])]
      rw [scanLabels_nil]
    | cons r rest2 =>
      have hdata : (succsTxt (t :: r :: rest2)).data
          = labelPat ++ (t.data ++ (',' :: ' ' :: (succsTxt (r :: rest2)).data)) := by
        rw [show succsTxt (t :: r :: rest2)
            = "label %" ++ t ++ ", " ++ succsTxt (r :: rest2) from rfl]
        rw [String.data_append, String.data_append, String.data_append]
        rw [show (", " : String).data = [',', ' '] from rfl]
        simp [labelPat]
      rw [hdata, scanLabels_label]
      rw [takeWhile_append_stop _ t.data ',' _ (fun a ha => by simp [hdelim a ha]) (by decide)]
      rw [dropWhile_append_stop _ t.data ',' _ (fun a ha => by simp [hdelim a ha]) (by decide)]
      rw [if_neg (by simp [htd])]
      rw [scanLabels_skip ',' _ (by decide), scanLabels_skip ' ' _ (by decide)]
      rw [ih (fun t2 h2 => hts t2 (by simp [h2]))]

/-- `getLabelFromBranch` applied to the printed branch returns exactly the
`succIdx`-th successor identifier (or `""` past the end). -/
theorem getLabelFromBranch_printBranch (b : Bool) (ts : List String) (i : Nat)
    (hts : ∀ t ∈ ts, t ≠ "" ∧ ∀ ch ∈ t.data, isDelim ch = false) :
    getLabelFromBranch (printBranch b ts) i = ts.getD i "" := by
  unfold getLabelFromBranch printBranch
  cases b
  · rw [show ((if (false : Bool) = true then "br i1 %cond, " else "br ") : String)
        = "br " from rfl]
    rw [String.data_append, scanLabels_junk "br ".data _ (by decide), scan_succsTxt ts hts]
  · rw [show ((if (true : Bool) = true then "br i1 %cond, " else "br ") : String)
        = "br i1 %cond, " from rfl]
    rw [String.data_append, scanLabels_junk "br i1 %cond, ".data _ (by decide),
      scan_succsTxt ts hts]

/-! ### Label assignment folds (claim C2) -/

theorem foldl_congr_mem {α β : Type} (l : List α) (f g : β → α → β) (b : β)
    (h : ∀ acc x, x ∈ l → f acc x = g acc x) : l.foldl f b = l.foldl g b := by
  induction l generalizing b with
  | nil => rfl
  | cons a rest ih =>
    rw [List.foldl_cons, List.foldl_cons, h b a (by simp)]
    exact ih _ (fun acc x hx => h acc x (by simp [hx]))

theorem getD_set (l : List String) (s : Nat) (v : String) (j : Nat) :
    (l.set s v).getD j "" = if j = s ∧ s < l.length then v else l.getD j "" := by
  rw [List.getD_eq_getElem?_getD, List.getD_eq_getElem?_getD, List.getElem?_set]
  by_cases h1 : s = j
  · subst h1
    by_cases h2 : s < l.length
    · simp [h2]
    · rw [List.getElem?_eq_none (by omega)]
      simp [h2]
  · have h3 : ¬ (j = s ∧ s < l.length) := by tauto
    simp [h1, h3]

theorem getD_mem_of_lt {α : Type} [Inhabited α] (l : List α) (n : Nat) (d : α)
    (h : n < l.length) : l.getD n d ∈ l := by
  rw [List.getD_eq_getElem _ _ h]
  exact List.getElem_mem h

theorem setfold_getD (succs : List Nat) (g : Nat → String) (labs : List String) (j : Nat)
    (hall : ∀ s ∈ succs, s < labs.length) :
    (succs.foldl (fun ls s => ls.set s (g s)) labs).getD j ""
      = if j ∈ succs then g j else labs.getD j "" := by
  induction succs generalizing labs with
  | nil => simp
  | cons s rest ih =>
    rw [List.foldl_cons,
      ih _ (fun s2 h2 => by rw [List.length_set]; exact hall s2 (by simp [h2]))]
    by_cases hj : j ∈ rest
    · simp [hj]
    · rw [if_neg hj, getD_set]
      by_cases hjs : j = s
      · subst hjs
        simp [hall j (by simp)]
      · simp [hjs, hj]

theorem foldl_range_getD_set (l : List Nat) (g : Nat → String) (labs : List String) :
    (List.range l.length).foldl (fun ls i => ls.set (l.getD i 0) (g (l.getD i 0))) labs
      = l.foldl (fun ls s => ls.set s (g s)) labs := by
  induction l using List.reverseRecOn with
  | nil => rfl
  | append_singleton l' a ih =>
    rw [List.length_append, List.length_singleton, List.range_succ, List.foldl_append,
      List.foldl_append]
    rw [foldl_congr_mem (List.range l'.length) _
      (fun ls i => ls.set (l'.getD i 0) (g (l'.getD i 0))) labs
      (fun acc i hi => by
        have hi2 : i < l'.length := List.mem_range.mp hi
        rw [List.getD_append _ _ _ _ hi2])]
    rw [ih]
    rw [List.foldl_cons, List.foldl_nil, List.foldl_cons, List.foldl_nil]
    rw [show (l' ++ [a]).getD l'.length 0 = a from by
      rw [List.getD_eq_getElem _ _ (by rw [List.length_append, List.length_singleton]; omega)]
      exact List.getElem_concat_length l' a _ rfl _]

theorem foldl_preserve_length {α : Type} (l : List α) (f : List String → α → List String)
    (h : ∀ labs x, (f labs x).length = labs.length) (labs : List String) :
    (l.foldl f labs).length = labs.length := by
  induction l generalizing labs with
  | nil => rfl
  | cons a rest ih =>
    rw [List.foldl_cons, ih, h]

theorem branchAssign_length (F : Func) (labels : List String) (p : Nat) :
    (branchAssign F labels p).length = labels.length := by
  unfold branchAssign
  cases hT : (F.blocks.getD p default).terminator with
  | none => rfl
  | some T =>
    obtain ⟨k, ops⟩ := T
    cases k
    case brI cnd succs =>
      refine foldl_preserve_length _ _ ?_ labels
      intro labs i
      show (if (getLabelFromBranch (printBranch cnd.isSome
          (succs.map (fun s => (F.blocks.getD s default).textId))) i) ≠ ""
        then labs.set (succs.getD i 0) (getLabelFromBranch (printBranch cnd.isSome
          (succs.map (fun s => (F.blocks.getD s default).textId))) i)
        else labs).length = labs.length
      split
      · rw [List.length_set]
      · rfl
    all_goals rfl

theorem branchAssign_getD (F : Func) (hwf : WFBlockIds F) (labels : List String)
    (hlen : labels.length = F.blocks.length) (p j : Nat) (hp : p < F.blocks.length) :
    (branchAssign F labels p).getD j ""
      = if isBranchTargetOf F p j then (F.blocks.getD j default).textId
        else labels.getD j "" := by
  unfold branchAssign isBranchTargetOf
  cases hT : (F.blocks.getD p default).terminator with
  | none => simp
  | some T =>
    obtain ⟨k, ops⟩ := T
    cases k
    case brI cnd succs =>
      dsimp only
      have hBmem : F.blocks.getD p default ∈ F.blocks := getD_mem_of_lt _ _ _ hp
      have hsuccs : ∀ s ∈ succs, s < F.blocks.length := by
        intro s hs
        apply hwf.2 (F.blocks.getD p default) hBmem s
        rw [Block.termSuccs, hT]
        simpa [Instr.succIdxs] using hs
      have hwfts : ∀ t ∈ succs.map (fun s => (F.blocks.getD s default).textId),
          t ≠ "" ∧ ∀ ch ∈ t.data, isDelim ch = false := by
        intro t ht
        obtain ⟨s, hs, rfl⟩ := List.mem_map.mp ht
        obtain ⟨h1, h2, h3⟩ := hwf.1 _ (getD_mem_of_lt _ _ _ (hsuccs s hs))
        exact ⟨h1, h2⟩
      rw [foldl_congr_mem (List.range succs.length) _
        (fun labs i => labs.set (succs.getD i 0) ((F.blocks.getD (succs.getD i 0)
          default).textId)) labels
        (fun acc i hi => by
          have hi2 : i < succs.length := List.mem_range.mp hi
          have hmap : (succs.map (fun s => (F.blocks.getD s default).textId)).getD i ""
              = (F.blocks.getD (succs.getD i 0) default).textId := by
            rw [List.getD_eq_getElem _ _ (by rw [List.length_map]; exact hi2),
              List.getElem_map, List.getD_eq_getElem _ _ hi2]
          have hne : (F.blocks.getD (succs.getD i 0) default).textId ≠ "" :=
            (hwf.1 _ (getD_mem_of_lt _ _ _
              (hsuccs _ (getD_mem_of_lt _ _ _ hi2)))).1
          rw [getLabelFromBranch_printBranch _ _ _ hwfts, hmap, if_pos hne])]
      rw [foldl_range_getD_set succs (fun s => (F.blocks.getD s default).textId) labels,
        setfold_getD succs (fun s => (F.blocks.getD s default).textId) labels j
          (fun s hs => by rw [hlen]; exact hsuccs s hs)]
      by_cases hj : j ∈ succs <;> simp [hj]
    all_goals simp

theorem phase2_length (F : Func) (labels : List String) :
    (phase2 F labels).length = labels.length :=
  foldl_preserve_length _ _ (fun labs p => branchAssign_length F labs p) labels

theorem initLabels_length (F : Func) : (initLabels F).length = F.blocks.length := by
  unfold initLabels
  rw [List.length_map, List.length_range]

theorem initLabels_getD (F : Func) (j : Nat) (hj : j < F.blocks.length) :
    (initLabels F).getD j "" = placeholderLabel j := by
  unfold initLabels
  rw [List.getD_eq_getElem _ _ (by rw [List.length_map, List.length_range]; exact hj),
    List.getElem_map, List.getElem_range]

theorem phase2_partial_getD (F : Func) (hwf : WFBlockIds F) (j : Nat)
    (hj : j < F.blocks.length) :
    ∀ p, p ≤ F.blocks.length →
      ((List.range p).foldl (branchAssign F) (initLabels F)).getD j ""
        = if (List.range p).any (fun q => isBranchTargetOf F q j)
          then (F.blocks.getD j default).textId
          else placeholderLabel j := by
  intro p
  induction p with
  | zero =>
    intro h0
    rw [show List.range 0 = ([] : List Nat) from rfl, List.foldl_nil]
    rw [show (List.any [] fun q => isBranchTargetOf F q j) = false from rfl]
    rw [if_neg (by simp)]
    exact initLabels_getD F j hj
  | succ p ih =>
    intro hp
    rw [List.range_succ, List.foldl_append, List.foldl_cons, List.foldl_nil]
    have hlenp : ((List.range p).foldl (branchAssign F) (initLabels F)).length
        = F.blocks.length := by
      rw [foldl_preserve_length _ _ (fun labs q => branchAssign_length F labs q),
        initLabels_length]
    rw [branchAssign_getD F hwf _ hlenp p j (by omega), ih (by omega)]
    by_cases h1 : isBranchTargetOf F p j = true <;>
      by_cases h2 : (List.range p).any (fun q => isBranchTargetOf F q j) = true <;>
        simp [h1, h2, List.any_append]

theorem phase2_getD (F : Func) (hwf : WFBlockIds F) (j : Nat)
    (hj : j < F.blocks.length) :
    (phase2 F (initLabels F)).getD j ""
      = if isBranchTarget F j then (F.blocks.getD j default).textId
        else placeholderLabel j := by
  unfold phase2 isBranchTarget
  exact phase2_partial_getD F hwf j hj F.blocks.length (le_refl _)

theorem foldl_range_labels_untouched (upd : List String → Nat → List String)
    (hloc : ∀ labs k j, j ≠ k → (upd labs k).getD j "" = labs.getD j "")
    (n j : Nat) (hj : n ≤ j) (labs0 : List String) :
    ((List.range n).foldl upd labs0).getD j "" = labs0.getD j "" := by
  induction n with
  | zero => rfl
  | succ n ih =>
    rw [List.range_succ, List.foldl_append, List.foldl_cons, List.foldl_nil]
    rw [hloc _ _ _ (by omega), ih (by omega)]

theorem foldl_range_labels_getD (upd : List String → Nat → List String)
    (G : Nat → String → String)
    (hlen : ∀ labs k, (upd labs k).length = labs.length)
    (hloc : ∀ labs k j, j ≠ k → (upd labs k).getD j "" = labs.getD j "")
    (hset : ∀ labs k, k < labs.length → (upd labs k).getD k "" = G k (labs.getD k ""))
    (n j : Nat) (hj : j < n) (labs0 : List String) (h0 : n ≤ labs0.length) :
    ((List.range n).foldl upd labs0).getD j "" = G j (labs0.getD j "") := by
  induction n with
  | zero => omega
  | succ n ih =>
    rw [List.range_succ, List.foldl_append, List.foldl_cons, List.foldl_nil]
    have hlenf : ((List.range n).foldl upd labs0).length = labs0.length :=
      foldl_preserve_length _ _ hlen labs0
    by_cases hjn : j = n
    · subst hjn
      rw [hset _ _ (by omega), foldl_range_labels_untouched upd hloc j j (le_refl j) labs0]
    · rw [hloc _ _ _ hjn, ih (by omega) (by omega)]

theorem phase3_getD (F : Func) (labels : List String)
    (hlen : F.blocks.length ≤ labels.length) (j : Nat) (hj : j < F.blocks.length) :
    (phase3 F labels).getD j ""
      = if ((F.blocks.getD j default).name ≠ "" ∧ (F.blocks.getD j default).name ≠ "0"
            ∧ containsSub "<unnamed".data ((labels.getD j "").data))
        then (F.blocks.getD j default).name
        else labels.getD j "" := by
  unfold phase3
  refine foldl_range_labels_getD _
    (fun k v => if ((F.blocks.getD k default).name ≠ ""
        ∧ (F.blocks.getD k default).name ≠ "0" ∧ containsSub "<unnamed".data v.data)
      then (F.blocks.getD k default).name else v) ?_ ?_ ?_ _ j hj labels hlen
  · intro labs k
    dsimp only
    split
    · rw [List.length_set]
    · rfl
  · intro labs k j2 hne
    dsimp only
    split
    · rw [getD_set]
      simp [hne]
    · rfl
  · intro labs k hk
    dsimp only
    split
    · rw [getD_set]
      simp [hk]
    · rfl

theorem placeholder_contains_unnamed (j : Nat) :
    containsSub "<unnamed".data (placeholderLabel j).data = true := by
  have h : (placeholderLabel j).data
      = "<unnamed".data ++ ('_' :: ((toString j).data ++ (">" : String).data)) := by
    unfold placeholderLabel
    rw [String.data_append, String.data_append,
      show ("<unnamed_" : String).data = "<unnamed".data ++ ['_'] from rfl]
    simp [List.append_assoc]
  rw [h]
  exact containsSub_append_self _ _ (by decide)

/-- **C2**: under LLVM's well-formedness of printed identifiers and
successor indices, the final label of every block respects the priority
order: a block targeted by any branch terminator carries the branch-derived
label — which is determined by the block alone (its printed identifier), so
re-running any branch's assignment on the finished phase-2 state changes
nothing, i.e. no later branch overwrites an already branch-labeled block —
otherwise the block's own declared name (unless empty or `"0"`), otherwise
the synthesized placeholder `<unnamed_N>`. -/
theorem c2_label_priority (F : Func) (hwf : WFBlockIds F) (j : Nat)
    (hj : j < F.blocks.length) :
    ((inferBlockLabels F).getD j ""
      = if isBranchTarget F j then (F.blocks.getD j default).textId
        else if (F.blocks.getD j default).name ≠ "" ∧ (F.blocks.getD j default).name ≠ "0"
        then (F.blocks.getD j default).name
        else placeholderLabel j)
    ∧ (isBranchTarget F j = true → ∀ p, p < F.blocks.length →
        (branchAssign F (phase2 F (initLabels F)) p).getD j ""
          = (phase2 F (initLabels F)).getD j "") := by
  have hp2 := phase2_getD F hwf j hj
  have hp2len : (phase2 F (initLabels F)).length = F.blocks.length := by
    rw [phase2_length, initLabels_length]
  constructor
  · unfold inferBlockLabels
    rw [phase3_getD F _ (by omega) j hj]
    by_cases ht : isBranchTarget F j = true
    · have hcsub : containsSub "<unnamed".data
          ((F.blocks.getD j default).textId).data = false :=
        (hwf.1 _ (getD_mem_of_lt _ _ _ hj)).2.2
      have hv : (phase2 F (initLabels F)).getD j "" = (F.blocks.getD j default).textId := by
        rw [hp2, if_pos ht]
      rw [hv, if_pos ht]
      rw [if_neg (by rw [hcsub]; simp)]
    · have hcsub : containsSub "<unnamed".data (placeholderLabel j).data = true :=
        placeholder_contains_unnamed j
      have hv : (phase2 F (initLabels F)).getD j "" = placeholderLabel j := by
        rw [hp2, if_neg ht]
      rw [hv, if_neg ht]
      by_cases hn : (F.blocks.getD j default).name ≠ "" ∧ (F.blocks.getD j default).name ≠ "0"
      · rw [if_pos ⟨hn.1, hn.2, hcsub⟩, if_pos hn]
      · rw [if_neg (by tauto), if_neg hn]
  · intro ht p hp
    rw [branchAssign_getD F hwf _ hp2len p j hp, hp2, if_pos ht]
    rw [ite_self]

/-- Witness for `c2_label_priority` on a three-block routine: the entry is
untargeted and keeps its declared name, the two branch targets take their
branch-derived identifiers. -/
theorem c2_label_priority_witness :
    let F3 : Func := ⟨[⟨"entry", "e0", [⟨.brI (some ⟨.argument, false⟩) [1, 2], []⟩]⟩,
      ⟨"", "t1", [⟨.retI, []⟩]⟩, ⟨"mid", "t2", [⟨.retI, []⟩]⟩]⟩
    (inferBlockLabels F3).getD 0 "" = "entry"
    ∧ (inferBlockLabels F3).getD 1 "" = "t1"
    ∧ (inferBlockLabels F3).getD 2 "" = "t2" := by
  have hwf : WFBlockIds ⟨[⟨"entry", "e0", [⟨.brI (some ⟨.argument, false⟩) [1, 2], []⟩]⟩,
      ⟨"", "t1", [⟨.retI, []⟩]⟩, ⟨"mid", "t2", [⟨.retI, []⟩]⟩]⟩ := by
    constructor
    · decide
    · decide
  have h0 := (c2_label_priority _ hwf 0 (by decide)).1
  have h1 := (c2_label_priority _ hwf 1 (by decide)).1
  have h2 := (c2_label_priority _ hwf 2 (by decide)).1
  refine ⟨?_, ?_, ?_⟩
  · rw [h0]
    decide
  · rw [h1]
    decide
  · rw [h2]
    decide

end BranchPred
